import Mathlib

/-!
Verification development for the Commons bulk-download pipeline
(`commons-downloader.js` and its newer revision).  Each JavaScript function
relevant to the specification is translated into an executable Lean
definition operating on lists of characters, bytes, and explicit state; the
theorems at the end of the file settle the specification claims against
those definitions.
-/

namespace MetDl

/-! ## Generic character/list helpers (JS string primitives) -/

/-- Worker for `collapseRuns`: `inRun` records whether the previous
character belonged to a run being replaced. -/
def collapseRunsGo (p : Char → Bool) (r : Char) : Bool → List Char → List Char
  | _, [] => []
  | inRun, c :: rest =>
    if p c then
      if inRun then collapseRunsGo p r true rest
      else r :: collapseRunsGo p r true rest
    else c :: collapseRunsGo p r false rest

/-- JS regex replacement of every maximal run of characters satisfying `p`
by the single character `r` (e.g. `.replace(/\s+/g, ' ')` or
`.replace(/[^A-Z0-9]+/g, '-')`). -/
def collapseRuns (p : Char → Bool) (r : Char) (l : List Char) : List Char :=
  collapseRunsGo p r false l

/-- Removal of a maximal trailing run of characters satisfying `p`
(the right half of JS `.trim()`). -/
def dropTrailing (p : Char → Bool) : List Char → List Char
  | [] => []
  | c :: rest =>
    match dropTrailing p rest with
    | [] => if p c then [] else [c]
    | d :: ds => c :: d :: ds

/-- Whether `pat` occurs as a contiguous substring of `l` (JS `regex.test` for a
literal pattern, and JS `String.includes`). -/
def hasSub (pat l : List Char) : Bool :=
  (List.range (l.length + 1)).any (fun i => pat.isPrefixOf (l.drop i))

/-- The JS `\s` whitespace class (as used by `.replace(/\s+/g, ' ')` and
`.trim()`). -/
def jsWs (c : Char) : Bool :=
  c ∈ ['\t', '\n', (Char.ofNat 0x0B), (Char.ofNat 0x0C), '\r', ' ',
    (Char.ofNat 0xA0), (Char.ofNat 0x1680), (Char.ofNat 0x2000),
    (Char.ofNat 0x2001), (Char.ofNat 0x2002), (Char.ofNat 0x2003),
    (Char.ofNat 0x2004), (Char.ofNat 0x2005), (Char.ofNat 0x2006),
    (Char.ofNat 0x2007), (Char.ofNat 0x2008), (Char.ofNat 0x2009),
    (Char.ofNat 0x200A), (Char.ofNat 0x2028), (Char.ofNat 0x2029),
    (Char.ofNat 0x202F), (Char.ofNat 0x205F), (Char.ofNat 0x3000),
    (Char.ofNat 0xFEFF)]

/-! ## `sanitize` (commons-downloader.js lines 76-82, part_001 lines 91-97)

```js
function sanitize(s) {
  return String(s || '')
    .replace(/[<>:\"/\\|?*\x00-\x1F]/g, '_')
    .replace(/\s+/g, ' ')
    .trim()
    .slice(0, 180);
}
``` -/

/-- A character matched by the class `[<>:\"/\\|?*\x00-\x1F]`. -/
def sanitizeForbidden (c : Char) : Bool :=
  c ∈ ['<', '>', ':', '"', '/', '\\', '|', '?', '*'] || c.toNat ≤ 0x1F

/-- The `sanitize` pipeline before the final `slice(0, 180)`: replace
forbidden characters by `_`, collapse whitespace runs to one space, and
trim both ends. -/
def sanitizeCore (l : List Char) : List Char :=
  dropTrailing jsWs
    ((collapseRuns jsWs ' '
      (l.map (fun c => if sanitizeForbidden c then '_' else c))).dropWhile jsWs)

/-- The full `sanitize` pipeline on a list of characters. -/
def sanitizeL (l : List Char) : List Char :=
  (sanitizeCore l).take 180

/-- JS `sanitize` on a string. -/
def sanitize (s : String) : String := ⟨sanitizeL s.data⟩

/-- JS `sanitize` on a possibly `null`/`undefined` argument:
`String(s || '')` turns an absent value into the empty string. -/
def sanitizeOpt (s : Option String) : String := sanitize (s.getD "")

/-! ## License classification (part_001 lines 408-439)

```js
const licenseUp = short.toUpperCase();
const norm = licenseUp.replace(/[^A-Z0-9]+/g, '-').replace(/-+/g, '-');
const pd = /(^|-)PD(-|$)/.test(norm) || /PUBLIC-DOMAIN/.test(norm);
const cc0 = /CC0/.test(norm);
const ccby = /CC-BY(?!-SA)/.test(norm) || /ATTRIBUTION/.test(licenseUp);
const ccbysa = /CC-BY-SA/.test(norm) || /ATTRIBUTION-SHAREALIKE/.test(norm);
const anycc = /^CC-/.test(norm) || licenseUp.includes('CREATIVE COMMONS');
let isOpen = false;
if (LICENSES.includes('PD') && pd) isOpen = true; ...
``` -/

/-- Uppercase-alphanumeric characters, the class `[A-Z0-9]`. -/
def isAlnumUp (c : Char) : Bool :=
  ('A' ≤ c && c ≤ 'Z') || ('0' ≤ c && c ≤ '9')

/-- The license-string normalisation: uppercase, then collapse every run
outside `[A-Z0-9]` to a single `-`, then collapse `-` runs. -/
def normLicense (up : List Char) : List Char :=
  collapseRuns (fun c => decide (c = '-')) '-'
    (collapseRuns (fun c => !isAlnumUp c) '-' up)

/-- Test of `/(^|-)PD(-|$)/` on `l`: an occurrence of `PD` delimited by the
string boundary or `-` on both sides. -/
def hasPDToken (l : List Char) : Bool :=
  (List.range (l.length + 1)).any (fun i =>
    ['P', 'D'].isPrefixOf (l.drop i) &&
    (i == 0 || l.getD (i - 1) ' ' == '-') &&
    (i + 2 == l.length || l.getD (i + 2) ' ' == '-'))

/-- Test of `/CC-BY(?!-SA)/` on `l`: an occurrence of `CC-BY` that is not
immediately followed by `-SA`. -/
def hasCCBYNotSA (l : List Char) : Bool :=
  (List.range (l.length + 1)).any (fun i =>
    "CC-BY".data.isPrefixOf (l.drop i) &&
    !("-SA".data.isPrefixOf (l.drop (i + 5))))

/-- The four regex family flags plus the catch-all, computed from the raw
license short name exactly as in `fetchCommonsInfoChunk`. -/
structure LicenseFlags where
  pd : Bool
  cc0 : Bool
  ccby : Bool
  ccbysa : Bool
  anycc : Bool
deriving DecidableEq, Repr

/-- Classify a reported license short name into the recognised families. -/
def classifyLicense (short : String) : LicenseFlags :=
  let up := short.data.map Char.toUpper
  let norm := normLicense up
  { pd := hasPDToken norm || hasSub "PUBLIC-DOMAIN".data norm
    cc0 := hasSub "CC0".data norm
    ccby := hasCCBYNotSA norm || hasSub "ATTRIBUTION".data up
    ccbysa := hasSub "CC-BY-SA".data norm ||
      hasSub "ATTRIBUTION-SHAREALIKE".data norm
    anycc := "CC-".data.isPrefixOf norm || hasSub "CREATIVE COMMONS".data up }

/-- The allow-list check: `isOpen` is set iff some family both matches and
has its token in the configured `LICENSES` list. -/
def isOpenFor (licenses : List String) (short : String) : Bool :=
  let f := classifyLicense short
  (licenses.contains "PD" && f.pd) ||
  (licenses.contains "CC0" && f.cc0) ||
  (licenses.contains "CC-BY" && f.ccby) ||
  (licenses.contains "CC-BY-SA" && f.ccbysa) ||
  (licenses.contains "ANY-CC" && f.anycc)

/-- The five recognised license families. -/
inductive LicenseFamily
  | pd
  | cc0
  | ccby
  | ccbysa
  | anycc
deriving DecidableEq, Repr

/-- The allow-list token naming each family. -/
def familyToken : LicenseFamily → String
  | .pd => "PD"
  | .cc0 => "CC0"
  | .ccby => "CC-BY"
  | .ccbysa => "CC-BY-SA"
  | .anycc => "ANY-CC"

/-- Whether the classification flags match a given family. -/
def familyMatches (f : LicenseFlags) : LicenseFamily → Bool
  | .pd => f.pd
  | .cc0 => f.cc0
  | .ccby => f.ccby
  | .ccbysa => f.ccbysa
  | .anycc => f.anycc

/-! ## Command-line flags (part_001 lines 24-56)

```js
const args = process.argv.slice(2);
function flag(name, d) {
  const i = args.indexOf(`--${name}`);
  if (i === -1) return d;
  const v = args[i + 1];
  return !v || v.startsWith('--') ? true : v;
}
const NO_LICENSE_FILTER = !!flag('noLicenseFilter', true);
``` -/

/-- A JS flag value: either a boolean or a string. -/
inductive FlagVal
  | b (v : Bool)
  | s (v : String)
deriving DecidableEq, Repr

/-- The `flag` helper: locate `--name` in the argument list; absent gives
the default, present with no usable following word gives `true`, otherwise
the following word. -/
def flag (args : List String) (name : String) (d : FlagVal) : FlagVal :=
  if args.indexOf ("--" ++ name) = args.length then d
  else
    match args.get? (args.indexOf ("--" ++ name) + 1) with
    | none => .b true
    | some v => if v = "" || v.startsWith "--" then .b true else .s v

/-- JS truthiness of a flag value (the `!!` coercion): a string is truthy
iff nonempty. -/
def flagTruthy : FlagVal → Bool
  | .b v => v
  | .s v => v ≠ ""

/-- The flag `NO_LICENSE_FILTER` as a function of the command line
(part_001 line 49: default `true`). -/
def noLicenseFilter (args : List String) : Bool :=
  flagTruthy (flag args "noLicenseFilter" (.b true))

/-- The candidate-selection step of `processBatch` (part_001 lines
678-691): with the filter bypassed every title is kept with license tag
`UNKNOWN`; otherwise only titles present in the license map and marked
open are kept, with their reported tag. -/
def batchSelect (noFilter : Bool) (titles : List String)
    (info : List (String × String × Bool)) : List (String × String) :=
  if noFilter then titles.map (fun t => (t, "UNKNOWN"))
  else titles.filterMap (fun t =>
    match (info.filter (fun r => r.1 = t)).head? with
    | none => none
    | some r => if r.2.2 then some (t, r.2.1) else none)

/-! ## Download validation (part_001 lines 141-222, commons-downloader.js
lines 133-191)

The byte stream is written to `destBase + '.part'` while a SHA-256 digest
is accumulated and the first 64 bytes are retained for signature sniffing.
After the stream ends the code checks the size, the signature/content
type, and the hash index, in that order; only the fully validated,
non-duplicate stream is renamed to its final name and recorded in the
index.  The digest itself is computed by `node:crypto` and is modelled as
an explicit function argument; only the fact that equal byte streams give
equal digests is used. -/

/-- Detected container kinds (`magicKind`). -/
inductive ImgKind
  | jpg
  | png
  | webp
deriving DecidableEq, Repr

/-- Signature sniffing `magicKind(buf)`: JPEG `FF D8`, PNG `89 50 4E 47`, or RIFF/WEBP
(`RIFF` = 52 49 46 46 at 0-3 and `WEBP` = 57 45 42 50 at 8-11). -/
def magicKind (buf : List ℕ) : Option ImgKind :=
  if 2 ≤ buf.length ∧ buf.getD 0 0 = 0xFF ∧ buf.getD 1 0 = 0xD8 then
    some .jpg
  else if 8 ≤ buf.length ∧ buf.getD 0 0 = 0x89 ∧ buf.getD 1 0 = 0x50 ∧
      buf.getD 2 0 = 0x4E ∧ buf.getD 3 0 = 0x47 then
    some .png
  else if 12 ≤ buf.length ∧
      buf.getD 0 0 = 0x52 ∧ buf.getD 1 0 = 0x49 ∧
      buf.getD 2 0 = 0x46 ∧ buf.getD 3 0 = 0x46 ∧
      buf.getD 8 0 = 0x57 ∧ buf.getD 9 0 = 0x45 ∧
      buf.getD 10 0 = 0x42 ∧ buf.getD 11 0 = 0x50 then
    some .webp
  else none

/-- Extension choice `extFor(kind)`. -/
def extFor (kind : ImgKind) : String :=
  match kind with
  | .png => ".png"
  | .webp => ".webp"
  | .jpg => ".jpg"

/-- Content-type check `looksImage(ct)`: a truthy content type that lowercases to something
starting with `image/` or containing `octet-stream`. -/
def looksImage (ct : String) : Bool :=
  ct ≠ "" &&
  (((ct.data.map Char.toLower)).take 6 == "image/".data ||
    hasSub "octet-stream".data (ct.data.map Char.toLower))

/-- One record of the hash index / in-memory `seen` map. -/
structure HashRec where
  sha256 : String
  path : String
  bytes : ℕ
deriving DecidableEq, Repr

/-- Lookup `seen.get(sha)`: the in-memory map is built by setting keys in file
order, so a later record for the same digest wins. -/
def seenLookup (seen : List HashRec) (sha : String) : Option HashRec :=
  (seen.reverse).find? (fun r => r.sha256 == sha)

/-- Validation errors thrown by `downloadValidated`. -/
inductive DVErr
  | tooSmall (bytes : ℕ)
  | nonImage (ct : String)
deriving DecidableEq, Repr

/-- Non-error outcomes of `downloadValidated`: a duplicate
(`skipped: true`) or a newly saved file. -/
inductive DVRes
  | dup (duplicateOf : String) (sha : String) (bytes : ℕ)
  | saved (path : String) (sha : String) (bytes : ℕ)
deriving DecidableEq, Repr

/-- Filesystem effects performed by `downloadValidated`, in order. -/
inductive FsEvent
  | writeTemp (tmp : String)
  | unlinkTemp (tmp : String)
  | renameTemp (tmp final : String)
  | appendIndex (sha path : String) (bytes : ℕ)
deriving DecidableEq, Repr

/-- The post-fetch body of `downloadValidated` (part_001 lines 171-221):
given the digest function, the in-memory hash index, the response content
type and bytes, and the destination base name, return the outcome together
with the ordered list of filesystem effects. -/
def downloadValidated (hash : List ℕ → String) (seen : List HashRec)
    (ct : String) (content : List ℕ) (destBase : String) :
    Except DVErr DVRes × List FsEvent :=
  if content.length < 1024 then
    (.error (.tooSmall content.length),
      [.writeTemp (destBase ++ ".part"), .unlinkTemp (destBase ++ ".part")])
  else if looksImage ct = false ∧ magicKind (content.take 64) = none then
    (.error (.nonImage ct),
      [.writeTemp (destBase ++ ".part"), .unlinkTemp (destBase ++ ".part")])
  else
    match seenLookup seen (hash content) with
    | some r =>
      (.ok (.dup r.path (hash content) r.bytes),
        [.writeTemp (destBase ++ ".part"), .unlinkTemp (destBase ++ ".part")])
    | none =>
      (.ok (.saved (destBase ++ extFor ((magicKind (content.take 64)).getD .jpg))
          (hash content) content.length),
        [.writeTemp (destBase ++ ".part"),
          .renameTemp (destBase ++ ".part")
            (destBase ++ extFor ((magicKind (content.take 64)).getD .jpg)),
          .appendIndex (hash content)
            (destBase ++ extFor ((magicKind (content.take 64)).getD .jpg))
            content.length])

/-- The index records appended by one invocation's effect list. -/
def appendsOf (evs : List FsEvent) : List HashRec :=
  evs.filterMap (fun e =>
    match e with
    | .appendIndex sha path bytes => some ⟨sha, path, bytes⟩
    | _ => none)

/-- True when an outcome is a validation error or a duplicate (the cases
in which nothing may become visible under a final name). -/
def isErrOrDup (r : Except DVErr DVRes) : Bool :=
  match r with
  | .error _ => true
  | .ok (.dup _ _ _) => true
  | .ok (.saved _ _ _) => false

/-- Scan of an effect list checking that no `appendIndex` occurs before a
`renameTemp`. -/
def appendOnlyAfterRename : List FsEvent → Bool
  | [] => true
  | .renameTemp _ _ :: _ => true
  | .appendIndex _ _ _ :: _ => false
  | _ :: rest => appendOnlyAfterRename rest

/-! ## Retrying SPARQL fetch (part_001 lines 292-351, commons-downloader.js
lines 215-247)

Both files loop over at most 6 attempts with
`backoff = Math.min(15000, 500 * 2**(attempt-1)) + Math.floor(Math.random()*200)`.
The remote interaction of attempt `a` is modelled by `resp a` (a received
status code or a network/timeout error) and the jitter draw by `jitter a`
(a value in `[0, 200)`).  The two revisions differ in their control flow:
in part_001 the whole attempt sits in a `try` whose `catch` swallows even
the `WD HTTP <status>` error thrown for a non-retryable status, so every
failure is retried until the attempt bound; in commons-downloader.js there
is no `try`, so a non-retryable status (or a network error) propagates
immediately. -/

/-- Outcome of one transport attempt: a received HTTP status, or a
network/timeout failure. -/
inductive AttemptOut
  | status (code : ℕ)
  | netErr
deriving DecidableEq, Repr

/-- The predicate `needsRetry = (code) => [429, 500, 502, 503, 504].includes(code)`. -/
def needsRetry (code : ℕ) : Bool :=
  code ∈ [429, 500, 502, 503, 504]

/-- JS `res.ok`: status in the 2xx range. -/
def statusOk (code : ℕ) : Bool :=
  200 ≤ code && code ≤ 299

/-- The backoff delay slept after attempt `a`:
`min(15000, 500 * 2**(a-1))` plus the jitter draw. -/
def backoffDelay (jitter : ℕ → ℕ) (a : ℕ) : ℕ :=
  min 15000 (500 * 2 ^ (a - 1)) + jitter a

/-- Final outcome of the paged-fetch call. -/
inductive WDOut
  | ok (status : ℕ)
  | errStatus (code : ℕ)
  | errNet
  | exhausted (lastStatus : Option ℕ)
deriving DecidableEq, Repr

/-- The part_001 retry loop: `fuel` counts the attempts left out of 6 and
`a` is the current attempt number.  A non-2xx response always falls
through to the backoff-and-retry path unless the attempt bound is reached,
because the thrown error is captured by the surrounding `catch`.  The
returned list collects the delays slept between attempts. -/
def wdFetchNewAux (resp : ℕ → AttemptOut) (jitter : ℕ → ℕ) :
    ℕ → ℕ → Option ℕ → WDOut × List ℕ
  | 0, _, lastStatus => (.exhausted lastStatus, [])
  | fuel + 1, a, lastStatus =>
    match resp a with
    | .status c =>
      if statusOk c then (.ok c, [])
      else if needsRetry c then
        let p := wdFetchNewAux resp jitter fuel (a + 1) (some c)
        (p.1, backoffDelay jitter a :: p.2)
      else if 6 ≤ a then (.errStatus c, [])
      else
        let p := wdFetchNewAux resp jitter fuel (a + 1) (some c)
        (p.1, backoffDelay jitter a :: p.2)
    | .netErr =>
      if 6 ≤ a then (.errNet, [])
      else
        let p := wdFetchNewAux resp jitter fuel (a + 1) lastStatus
        (p.1, backoffDelay jitter a :: p.2)

/-- The call `fetchWikidataBatchPaged` of part_001: 6 attempts starting at 1. -/
def wdFetchNew (resp : ℕ → AttemptOut) (jitter : ℕ → ℕ) :
    WDOut × List ℕ :=
  wdFetchNewAux resp jitter 6 1 none

/-- The commons-downloader.js retry loop: no `try`/`catch`, so a
non-retryable status throws out of the loop at once and a network error
propagates immediately; the exhaustion error carries no status. -/
def wdFetchOldAux (resp : ℕ → AttemptOut) (jitter : ℕ → ℕ) :
    ℕ → ℕ → WDOut × List ℕ
  | 0, _ => (.exhausted none, [])
  | fuel + 1, a =>
    match resp a with
    | .status c =>
      if statusOk c then (.ok c, [])
      else if needsRetry c then
        let p := wdFetchOldAux resp jitter fuel (a + 1)
        (p.1, backoffDelay jitter a :: p.2)
      else (.errStatus c, [])
    | .netErr => (.errNet, [])

/-- The call `fetchWikidataBatchPaged` of commons-downloader.js: 6 attempts. -/
def wdFetchOld (resp : ℕ → AttemptOut) (jitter : ℕ → ℕ) :
    WDOut × List ℕ :=
  wdFetchOldAux resp jitter 6 1

/-- A transport that answers 503 on the first three attempts and 200
afterwards (the boundary scenario of the specification). -/
def resp503x3 (a : ℕ) : AttemptOut :=
  if a ≤ 3 then .status 503 else .status 200

/-- A transport that answers 404 on the first attempt and 200 afterwards
(a non-retryable status followed by success). -/
def resp404then200 (a : ℕ) : AttemptOut :=
  if a = 1 then .status 404 else .status 200

/-- A transport that always answers 503. -/
def respAll503 (_ : ℕ) : AttemptOut := .status 503

/-! ## Partitions and checkpoint resume (part_001 lines 353-360 and
525-551, commons-downloader.js lines 249-256 and 349-373)

```js
function* yearSlices(from, to, span) {
  let a = from;
  while (a <= to) { const b = Math.min(a + span - 1, to); yield [a, b]; a = b + 1; }
}
...
let { sliceFrom, sliceTo, offset, saved, done } = ck;
const slices = Array.from(yearSlices(YEAR_FROM, YEAR_TO, span));
let startIndex = slices.findIndex(([a, b]) => a === sliceFrom && b === sliceTo);
if (startIndex === -1) startIndex = 0;
for (let si = startIndex; ...) { ... fetchWikidataBatchPaged({ yearFrom: a, yearTo: b, limit: pageSize, offset }) ... }
```

Note that `offset` is taken from the checkpoint and is *not* reset when
`findIndex` fails. -/

/-- The generator `yearSlices` with explicit fuel (`to + 1 - from` steps suffice for any
span ≥ 1, which the callers guarantee via `Math.max(1, ...)`). -/
def yearSlicesAux (span : ℕ) : ℕ → ℕ → ℕ → List (ℕ × ℕ)
  | 0, _, _ => []
  | fuel + 1, a, b =>
    if a ≤ b then
      (a, min (a + span - 1) b) :: yearSlicesAux span fuel (min (a + span - 1) b + 1) b
    else []

/-- The partition sequence of year windows. -/
def yearSlices (yearFrom yearTo span : ℕ) : List (ℕ × ℕ) :=
  yearSlicesAux span (yearTo + 1 - yearFrom) yearFrom yearTo

/-- The persisted checkpoint record. -/
structure Ckpt where
  sliceFrom : ℕ
  sliceTo : ℕ
  offset : ℕ
  saved : ℕ
  done : Bool
deriving DecidableEq, Repr

/-- The arguments of the first page fetch issued after a restart: the
partition bounds selected by the `findIndex` resume logic, and the page
offset.  `none` when the partition list is empty (the loop body never
runs). -/
def resumeTarget (yearFrom yearTo span : ℕ) (ck : Ckpt) :
    Option ((ℕ × ℕ) × ℕ) :=
  match (yearSlices yearFrom yearTo span).get?
      (if (yearSlices yearFrom yearTo span).findIdx
            (fun p => p.1 == ck.sliceFrom && p.2 == ck.sliceTo) =
          (yearSlices yearFrom yearTo span).length
        then 0
        else (yearSlices yearFrom yearTo span).findIdx
          (fun p => p.1 == ck.sliceFrom && p.2 == ck.sliceTo)) with
  | none => none
  | some p => some (p, ck.offset)

/-! ## Bounded worker pool (part_001 lines 477-490, commons-downloader.js
lines 334-347)

```js
async function runPool(items, worker, conc) {
  const q = [...items];
  const running = new Set();
  while (q.length > 0 || running.size > 0) {
    while (q.length > 0 && running.size < conc) {
      const it = q.shift();
      const p = (async () => { await worker(it); })().finally(() => running.delete(p));
      running.add(p);
    }
    if (running.size > 0) await Promise.race(running);
  }
}
```

Workers only suspend at `await`, so one iteration of the outer loop
consists of the deterministic fill of the inner `while` followed by the
completion of one nondeterministically chosen in-flight task at
`Promise.race`.  `started` is a ghost log of the admitted items, appended
exactly when `q.shift()` hands an item to a worker; `q` and `running`
mirror the source variables. -/

/-- The pool state: pending queue, in-flight items, and the ghost
admission log. -/
structure PoolState (α : Type) where
  q : List α
  running : List α
  started : List α
deriving DecidableEq, Repr

/-- The inner `while`: admit queued items until the queue is empty or
`conc` items are in flight. -/
def poolFillGo (conc : ℕ) : List α → List α → List α → PoolState α
  | [], running, started => ⟨[], running, started⟩
  | it :: rest, running, started =>
    if running.length < conc then
      poolFillGo conc rest (running ++ [it]) (started ++ [it])
    else ⟨it :: rest, running, started⟩

/-- The inner `while` applied to a state. -/
def poolFill (conc : ℕ) (s : PoolState α) : PoolState α :=
  poolFillGo conc s.q s.running s.started

/-- One iteration of the outer loop: fill, then the in-flight task at
index `i` completes and is removed by its `finally` handler.  Enabled only
while the loop condition `q.length > 0 || running.size > 0` holds. -/
inductive PoolIter (conc : ℕ) : PoolState α → PoolState α → Prop where
  | step (s : PoolState α) (i : ℕ)
      (hne : s.q ≠ [] ∨ s.running ≠ [])
      (hi : i < (poolFill conc s).running.length) :
      PoolIter conc s
        ⟨(poolFill conc s).q, (poolFill conc s).running.eraseIdx i,
          (poolFill conc s).started⟩

/-- Zero or more pool iterations. -/
def PoolReach (conc : ℕ) : PoolState α → PoolState α → Prop :=
  Relation.ReflTransGen (PoolIter conc)

/-- The initial pool state for a work list. -/
def initPool (items : List α) : PoolState α := ⟨items, [], []⟩

/-! ## Quota gate (part_001 lines 492-523)

```js
function createQuota(limit, initialSaved = 0) {
  if (!isFinite(limit) || limit <= 0) { ... unlimited ... }
  let remaining = Math.max(0, limit - (initialSaved || 0));
  return {
    take() {
      if (remaining <= 0) return null;
      remaining--;
      let committed = false;
      return {
        commit() { committed = true; },
        release() { if (!committed) remaining++; },
      };
    },
    left() { return remaining; },
  };
}
```

The finite branch is modelled as a state machine: the state holds the
shared `remaining` counter and the `committed` flag of every token handed
out so far, in order of `take()`.  Events name tokens by that index. -/

/-- An event of the quota protocol: a `take()` call, or `commit()` /
`release()` on the `i`-th token handed out. -/
inductive QEvent
  | take
  | commit (i : ℕ)
  | release (i : ℕ)
deriving DecidableEq, Repr

/-- The quota state: the `remaining` counter and the `committed` flags of
the tokens returned so far (in `take()` order). -/
structure QState where
  remaining : ℕ
  tokens : List Bool
deriving DecidableEq, Repr

/-- Operation `take()`: with `remaining <= 0` return `null` (no new token),
otherwise decrement and hand out a fresh uncommitted token. -/
def qTake (s : QState) : QState :=
  if s.remaining = 0 then s
  else ⟨s.remaining - 1, s.tokens ++ [false]⟩

/-- Operation `commit()` on token `i`: set its `committed` flag. -/
def qCommit (s : QState) (i : ℕ) : QState :=
  ⟨s.remaining, s.tokens.set i true⟩

/-- Operation `release()` on token `i`: restore the decrement iff the token is not
committed (out-of-range indices, which valid traces never produce, are
no-ops). -/
def qRelease (s : QState) (i : ℕ) : QState :=
  if s.tokens.getD i true = false then ⟨s.remaining + 1, s.tokens⟩ else s

/-- Apply one event. -/
def qStep (s : QState) : QEvent → QState
  | .take => qTake s
  | .commit i => qCommit s i
  | .release i => qRelease s i

/-- Run a trace of events against a quota created with finite limit `L`
and initial saved count 0 (`remaining = max(0, L - 0) = L`). -/
def qRun (L : ℕ) (tr : List QEvent) : QState :=
  tr.foldl qStep ⟨L, []⟩

/-- Number of tokens handed out by the successful `take()` calls of a
trace. -/
def takesCount (L : ℕ) (tr : List QEvent) : ℕ :=
  (qRun L tr).tokens.length

/-- Tokens of the trace that received a `commit()` call. -/
def committedCount (L : ℕ) (tr : List QEvent) : ℕ :=
  ((Finset.range (takesCount L tr)).filter
    (fun i => QEvent.commit i ∈ tr)).card

/-- Outstanding uncommitted tokens: handed out, never committed, never
released. -/
def outstandingCount (L : ℕ) (tr : List QEvent) : ℕ :=
  ((Finset.range (takesCount L tr)).filter
    (fun i => QEvent.commit i ∉ tr ∧ QEvent.release i ∉ tr)).card

/-- Boolean check that the event at position `k` refers to a token handed
out by an earlier successful `take` of the trace. -/
def eventRefOk (L : ℕ) (tr : List QEvent) (k : ℕ) : Bool :=
  match tr.getD k .take with
  | .take => true
  | .commit i => decide (i < takesCount L (tr.take k))
  | .release i => decide (i < takesCount L (tr.take k))

/-- Boolean check that a pair of events is not a duplicated `commit` or a
duplicated `release` on the same token. -/
def pairNoDup : QEvent → QEvent → Bool
  | .commit i, .commit j => !(i == j)
  | .release i, .release j => !(i == j)
  | _, _ => true

/-- Boolean check that a pair of events (in trace order) is not a
`release` followed by a `commit` on the same token. -/
def pairNoCommitAfterRelease : QEvent → QEvent → Bool
  | .release i, .commit j => !(i == j)
  | _, _ => true

/-- Each `commit`/`release` event refers to a token handed out by an
earlier successful `take` of the trace. -/
def qValidRefs (L : ℕ) (tr : List QEvent) : Prop :=
  ∀ k, k < tr.length → eventRefOk L tr k = true

/-- No token receives two `commit()` calls or two `release()` calls. -/
def qNoDup (tr : List QEvent) : Prop :=
  ∀ k₁, k₁ < tr.length → ∀ k₂, k₂ < tr.length → k₁ < k₂ →
    pairNoDup (tr.getD k₁ .take) (tr.getD k₂ .take) = true

/-- No token receives a `commit()` after its `release()`. -/
def qNoCommitAfterRelease (tr : List QEvent) : Prop :=
  ∀ k₁, k₁ < tr.length → ∀ k₂, k₂ < tr.length → k₁ < k₂ →
    pairNoCommitAfterRelease (tr.getD k₁ .take) (tr.getD k₂ .take) = true

/-- The precondition exactly as the claim states it: well-referenced
events, at most one `commit()` and at most one `release()` per token. -/
def qWFStated (L : ℕ) (tr : List QEvent) : Prop :=
  qValidRefs L tr ∧ qNoDup tr

/-- The amended precondition: additionally, no token is committed after
having been released (so per token the allowed histories are: nothing,
one commit, one release, or one commit followed by one release). -/
def qWFAmended (L : ℕ) (tr : List QEvent) : Prop :=
  qValidRefs L tr ∧ qNoDup tr ∧ qNoCommitAfterRelease tr

instance (L : ℕ) (tr : List QEvent) : Decidable (qValidRefs L tr) := by
  unfold qValidRefs; infer_instance

instance (tr : List QEvent) : Decidable (qNoDup tr) := by
  unfold qNoDup; infer_instance

instance (tr : List QEvent) : Decidable (qNoCommitAfterRelease tr) := by
  unfold qNoCommitAfterRelease; infer_instance

instance (L : ℕ) (tr : List QEvent) : Decidable (qWFStated L tr) := by
  unfold qWFStated; infer_instance

instance (L : ℕ) (tr : List QEvent) : Decidable (qWFAmended L tr) := by
  unfold qWFAmended; infer_instance

/-! ## Supporting lemmas and claim theorems -/

/-- A fixed stand-in for the external SHA-256 digest of `node:crypto`,
used to instantiate concrete scenarios; the development only ever relies
on a digest being a function of the byte stream. -/
def constDigest : List ℕ → String := fun _ => "d0"

/-- C8: any stream of fewer than 1024 bytes fails validation with the
too-small error and has its temporary file removed, whatever the
content type, the digest function, and the hash index. -/
theorem undersize_rejected (hash : List ℕ → String) (seen : List HashRec)
    (ct : String) (content : List ℕ) (destBase : String)
    (h : content.length < 1024) :
    downloadValidated hash seen ct content destBase =
      (.error (.tooSmall content.length),
        [.writeTemp (destBase ++ ".part"),
          .unlinkTemp (destBase ++ ".part")]) := by
  unfold downloadValidated
  rw [if_pos h]

/-- C8 witness: a 500-byte stream is rejected as too small even when the
transport claims an image content type. -/
theorem undersize_rejected_witness :
    (List.replicate 500 (0 : ℕ)).length < 1024 ∧
    downloadValidated constDigest [] "image/jpeg" (List.replicate 500 (0 : ℕ))
        "out/f" =
      (.error (.tooSmall (List.replicate 500 (0 : ℕ)).length),
        [.writeTemp "out/f.part", .unlinkTemp "out/f.part"]) :=
  ⟨by rw [List.length_replicate]; norm_num,
    undersize_rejected constDigest [] "image/jpeg"
      (List.replicate 500 0) "out/f" (by rw [List.length_replicate]; norm_num)⟩

/-- C6: every invocation first writes to the `.part` temporary; an index
record is never appended before the rename; and on the too-small,
non-image and duplicate outcomes the temporary is removed, nothing is
renamed to a final name, and the hash index receives nothing. -/
theorem temp_rename_visibility (hash : List ℕ → String) (seen : List HashRec)
    (ct : String) (content : List ℕ) (destBase : String)
    (res : Except DVErr DVRes) (evs : List FsEvent)
    (h : downloadValidated hash seen ct content destBase = (res, evs)) :
    evs.head? = some (.writeTemp (destBase ++ ".part"))
    ∧ appendOnlyAfterRename evs = true
    ∧ (isErrOrDup res = true →
        FsEvent.unlinkTemp (destBase ++ ".part") ∈ evs
        ∧ appendsOf evs = []
        ∧ ∀ tmp fin, FsEvent.renameTemp tmp fin ∉ evs) := by
  unfold downloadValidated at h
  split at h
  · injection h with h1 h2
    subst h1; subst h2
    simp [appendOnlyAfterRename, appendsOf, isErrOrDup]
  · split at h
    · injection h with h1 h2
      subst h1; subst h2
      simp [appendOnlyAfterRename, appendsOf, isErrOrDup]
    · split at h
      · injection h with h1 h2
        subst h1; subst h2
        simp [appendOnlyAfterRename, appendsOf, isErrOrDup]
      · injection h with h1 h2
        subst h1; subst h2
        simp [appendOnlyAfterRename, appendsOf, isErrOrDup]

set_option maxRecDepth 20000 in
/-- C6 witness: the duplicate outcome on a concrete stream removes the
temporary, appends nothing and renames nothing. -/
theorem temp_rename_visibility_witness :
    (downloadValidated constDigest [⟨"d0", "a.jpg", 1024⟩] "image/jpeg"
        (List.replicate 1024 (0 : ℕ)) "b" =
      (.ok (.dup "a.jpg" "d0" 1024), [.writeTemp "b.part", .unlinkTemp "b.part"]))
    ∧ (isErrOrDup (Except.ok (.dup "a.jpg" "d0" 1024)) = true →
        FsEvent.unlinkTemp "b.part" ∈
          [FsEvent.writeTemp "b.part", FsEvent.unlinkTemp "b.part"]
        ∧ appendsOf [FsEvent.writeTemp "b.part", FsEvent.unlinkTemp "b.part"] = []
        ∧ ∀ tmp fin, FsEvent.renameTemp tmp fin ∉
            [FsEvent.writeTemp "b.part", FsEvent.unlinkTemp "b.part"]) :=
  ⟨by rfl,
    (temp_rename_visibility constDigest [⟨"d0", "a.jpg", 1024⟩] "image/jpeg"
      (List.replicate 1024 0) "b" (.ok (.dup "a.jpg" "d0" 1024))
      [.writeTemp "b.part", .unlinkTemp "b.part"] (by rfl)).2.2⟩

/-- C4 (amended): the license-filter bypass is the implicit default — the
flag defaults to `true`, and since any explicitly passed value is truthy
as well, the mode is active under every command line; while active, every
candidate is kept with the `UNKNOWN` license tag. -/
theorem no_license_filter_default_amended (args : List String) :
    noLicenseFilter args = true
    ∧ ∀ (titles : List String) (info : List (String × String × Bool)),
        batchSelect (noLicenseFilter args) titles info =
          titles.map (fun t => (t, "UNKNOWN")) := by
  have h : noLicenseFilter args = true := by
    unfold noLicenseFilter flag
    split
    · rfl
    · split
      · rfl
      · split
        · rfl
        · rename_i v hv
          simp only [flagTruthy, decide_eq_true_eq]
          intro hempty
          apply hv
          simp [hempty]
  refine ⟨h, ?_⟩
  intro titles info
  rw [h]
  rfl

/-- C4 counterexample: with an empty command line — the caller requesting
nothing — the bypass mode is already active, so it is not opt-in. -/
theorem no_license_filter_default_cex :
    "--noLicenseFilter" ∉ ([] : List String)
    ∧ noLicenseFilter [] = true := by
  constructor
  · exact List.not_mem_nil _
  · rfl

/-- C2 (amended): after a restart, if some partition of the configured
sequence has exactly the checkpoint's bounds, the first page fetch targets
that partition at the checkpoint's `pageOffset`; if no partition matches,
the run restarts from the first partition but **keeps the checkpoint's
`pageOffset`** (the code never resets `offset` in the unmatched case). -/
theorem checkpoint_resume_amended (yearFrom yearTo span : ℕ) (ck : Ckpt) :
    ((ck.sliceFrom, ck.sliceTo) ∈ yearSlices yearFrom yearTo span →
      resumeTarget yearFrom yearTo span ck =
        some ((ck.sliceFrom, ck.sliceTo), ck.offset))
    ∧ ((∀ p ∈ yearSlices yearFrom yearTo span,
          ¬(p.1 = ck.sliceFrom ∧ p.2 = ck.sliceTo)) →
        ∀ p₀, (yearSlices yearFrom yearTo span).head? = some p₀ →
          resumeTarget yearFrom yearTo span ck = some (p₀, ck.offset)) := by
  constructor
  · intro hmem
    unfold resumeTarget
    have hex : ∃ p ∈ yearSlices yearFrom yearTo span,
        (fun p : ℕ × ℕ => p.1 == ck.sliceFrom && p.2 == ck.sliceTo) p = true := by
      exact ⟨(ck.sliceFrom, ck.sliceTo), hmem, by simp⟩
    have hlt := List.findIdx_lt_length_of_exists hex
    rw [if_neg (Nat.ne_of_lt hlt)]
    rw [List.get?_eq_get hlt]
    have hpred := List.findIdx_get (w := hlt)
    simp only [Bool.and_eq_true, beq_iff_eq] at hpred
    have hget : (yearSlices yearFrom yearTo span).get
        ⟨_, hlt⟩ = (ck.sliceFrom, ck.sliceTo) := by
      obtain ⟨h1, h2⟩ := hpred
      exact Prod.ext h1 h2
    rw [hget]
  · intro hno p₀ hp₀
    unfold resumeTarget
    have hlen : (yearSlices yearFrom yearTo span).findIdx
        (fun p => p.1 == ck.sliceFrom && p.2 == ck.sliceTo) =
        (yearSlices yearFrom yearTo span).length := by
      rw [List.findIdx_eq_length]
      intro p hp
      show (p.1 == ck.sliceFrom && p.2 == ck.sliceTo) = false
      cases hb : (p.1 == ck.sliceFrom && p.2 == ck.sliceTo)
      · rfl
      · exfalso
        rw [Bool.and_eq_true, beq_iff_eq, beq_iff_eq] at hb
        exact hno p hp hb
    rw [if_pos hlen]
    have h0 : (yearSlices yearFrom yearTo span).get? 0 = some p₀ := by
      rw [List.get?_eq_getElem?, ← List.head?_eq_getElem?]
      exact hp₀
    rw [h0]

/-- C2 witness: a checkpoint `{1900, 1901, offset 40}` over partitions of
width 2 starting at 1900 resumes inside `[1900, 1901]` at offset 40. -/
theorem checkpoint_resume_witness :
    ((1900, 1901) ∈ yearSlices 1900 1903 2)
    ∧ resumeTarget 1900 1903 2 ⟨1900, 1901, 40, 7, false⟩ =
        some ((1900, 1901), 40) :=
  ⟨by decide,
    (checkpoint_resume_amended 1900 1903 2 ⟨1900, 1901, 40, 7, false⟩).1
      (by decide)⟩

/-- C2 counterexample: with partitions `[1800,1801]`, `[1802,1803]`,
`[1804,1805]` and a checkpoint whose bounds `(5000, 5001)` match no
partition, the run resumes at the first partition but at the stale
offset 40, not at offset 0 as the claim states. -/
theorem checkpoint_resume_cex :
    resumeTarget 1800 1805 2 ⟨5000, 5001, 40, 0, false⟩ =
      some ((1800, 1801), 40)
    ∧ resumeTarget 1800 1805 2 ⟨5000, 5001, 40, 0, false⟩ ≠
      some ((1800, 1801), 0) := by
  constructor
  · rfl
  · decide

/-- C5 (amended): for the retrying SPARQL fetch with jitter draws below
200: a 2xx response returns immediately in both revisions; a request
answered 503 three times then 200 succeeds after exactly 3 retries with
delays `500·2^(a-1) + jitter` that strictly increase between successive
attempts (the 15000 ms cap is never reached between the at most 6
attempts); in the older client every other non-2xx status fails
immediately surfacing the status, while in the current client the thrown
status error is caught by the retry loop, so such statuses are retried
like transient ones (404 then 200 succeeds on the second attempt); and
when the attempts are exhausted the current client fails with a
retries-exhausted error carrying the last observed status. -/
theorem retry_backoff_amended (jitter : ℕ → ℕ) (hj : ∀ a, jitter a < 200) :
    (wdFetchNew resp503x3 jitter =
      (.ok 200, [500 + jitter 1, 1000 + jitter 2, 2000 + jitter 3]))
    ∧ (wdFetchOld resp503x3 jitter =
      (.ok 200, [500 + jitter 1, 1000 + jitter 2, 2000 + jitter 3]))
    ∧ (∀ a, 1 ≤ a → a ≤ 5 →
        backoffDelay jitter a < backoffDelay jitter (a + 1))
    ∧ (∀ (resp : ℕ → AttemptOut) (c : ℕ), resp 1 = .status c →
        statusOk c = true →
        wdFetchNew resp jitter = (.ok c, [])
        ∧ wdFetchOld resp jitter = (.ok c, []))
    ∧ (∀ (resp : ℕ → AttemptOut) (c : ℕ), resp 1 = .status c →
        statusOk c = false → needsRetry c = false →
        wdFetchOld resp jitter = (.errStatus c, []))
    ∧ (wdFetchNew resp404then200 jitter = (.ok 200, [500 + jitter 1]))
    ∧ (wdFetchNew respAll503 jitter =
        (.exhausted (some 503),
          [500 + jitter 1, 1000 + jitter 2, 2000 + jitter 3,
            4000 + jitter 4, 8000 + jitter 5, 15000 + jitter 6])) := by
  refine ⟨?_, ?_, ?_, ?_, ?_, ?_, ?_⟩
  · simp [wdFetchNew, wdFetchNewAux, resp503x3, statusOk, needsRetry,
      backoffDelay]
  · simp [wdFetchOld, wdFetchOldAux, resp503x3, statusOk, needsRetry,
      backoffDelay]
  · intro a h1 h5
    have ha := hj a
    have ha1 := hj (a + 1)
    interval_cases a <;> simp [backoffDelay] <;> omega
  · intro resp c hresp hok
    constructor
    · simp [wdFetchNew, wdFetchNewAux, hresp, hok]
    · simp [wdFetchOld, wdFetchOldAux, hresp, hok]
  · intro resp c hresp hok hnr
    simp [wdFetchOld, wdFetchOldAux, hresp, hok, hnr]
  · simp [wdFetchNew, wdFetchNewAux, resp404then200, statusOk, needsRetry,
      backoffDelay]
  · simp [wdFetchNew, wdFetchNewAux, respAll503, statusOk, needsRetry,
      backoffDelay]

/-- C5 witness: with zero jitter the 503-503-503-200 scenario succeeds in
both revisions after exactly the three delays 500, 1000, 2000 ms. -/
theorem retry_backoff_witness :
    wdFetchNew resp503x3 (fun _ => 0) = (.ok 200, [500, 1000, 2000])
    ∧ wdFetchOld resp503x3 (fun _ => 0) = (.ok 200, [500, 1000, 2000]) :=
  ⟨(retry_backoff_amended (fun _ => 0) (fun _ => by norm_num)).1,
    (retry_backoff_amended (fun _ => 0) (fun _ => by norm_num)).2.1⟩

/-- C5 counterexample: in the current client (part_001) a non-retryable
status does not fail immediately — answered 404 then 200, the call
succeeds on the second attempt after one backoff delay instead of
surfacing the 404. -/
theorem retry_backoff_cex :
    wdFetchNew resp404then200 (fun _ => 0) = (.ok 200, [500])
    ∧ (wdFetchNew resp404then200 (fun _ => 0)).1 ≠ .errStatus 404 := by
  constructor
  · rfl
  · decide

/-- C7: license classification on the normalised string: `Public Domain`
falls in the public-domain family; `CC BY-SA 4.0` falls in the
attribution-share-alike family and not in the plain attribution family;
with allow-list `{PD}` a CC-BY-SA candidate is not allowed, with
`{ANY-CC}` it is; and in general `isOpen` holds iff some matched family's
token is in the allow-list. -/
theorem license_classification :
    (classifyLicense "Public Domain").pd = true
    ∧ (classifyLicense "CC BY-SA 4.0").ccbysa = true
    ∧ (classifyLicense "CC BY-SA 4.0").ccby = false
    ∧ isOpenFor ["PD"] "CC BY-SA 4.0" = false
    ∧ isOpenFor ["ANY-CC"] "CC BY-SA 4.0" = true
    ∧ ∀ (licenses : List String) (short : String),
        isOpenFor licenses short = true ↔
          ∃ fam, familyMatches (classifyLicense short) fam = true ∧
            familyToken fam ∈ licenses := by
  refine ⟨by decide, by decide, by decide, by decide, by decide, ?_⟩
  intro licenses short
  unfold isOpenFor
  simp only [Bool.or_eq_true, Bool.and_eq_true, List.elem_iff]
  constructor
  · rintro (((((⟨hm, hf⟩ | ⟨hm, hf⟩) | ⟨hm, hf⟩) | ⟨hm, hf⟩) | ⟨hm, hf⟩))
    · exact ⟨.pd, hf, hm⟩
    · exact ⟨.cc0, hf, hm⟩
    · exact ⟨.ccby, hf, hm⟩
    · exact ⟨.ccbysa, hf, hm⟩
    · exact ⟨.anycc, hf, hm⟩
  · rintro ⟨fam, hf, hm⟩
    cases fam
    · exact Or.inl (Or.inl (Or.inl (Or.inl ⟨hm, hf⟩)))
    · exact Or.inl (Or.inl (Or.inl (Or.inr ⟨hm, hf⟩)))
    · exact Or.inl (Or.inl (Or.inr ⟨hm, hf⟩))
    · exact Or.inl (Or.inr ⟨hm, hf⟩)
    · exact Or.inr ⟨hm, hf⟩

/-! ### Lemmas for the `sanitize` pipeline -/

/-- Equation: a run character while already inside a run is skipped. -/
theorem collapseRunsGo_cons_skip (p : Char → Bool) (r c0 : Char)
    (rest : List Char) (hp : p c0 = true) :
    collapseRunsGo p r true (c0 :: rest) = collapseRunsGo p r true rest := by
  simp [collapseRunsGo, hp]

/-- Equation: a run character met outside a run emits the replacement. -/
theorem collapseRunsGo_cons_emit (p : Char → Bool) (r c0 : Char)
    (rest : List Char) (hp : p c0 = true) :
    collapseRunsGo p r false (c0 :: rest) =
      r :: collapseRunsGo p r true rest := by
  simp [collapseRunsGo, hp]

/-- Equation: a non-run character is copied. -/
theorem collapseRunsGo_cons_copy (p : Char → Bool) (r c0 : Char)
    (rest : List Char) (b : Bool) (hp : p c0 = false) :
    collapseRunsGo p r b (c0 :: rest) =
      c0 :: collapseRunsGo p r false rest := by
  cases b <;> simp [collapseRunsGo, hp]

/-- Every character emitted by `collapseRunsGo` is the replacement
character or a character of the input that does not satisfy `p`. -/
theorem collapseRunsGo_mem (p : Char → Bool) (r : Char) :
    ∀ (l : List Char) (b : Bool) (c : Char), c ∈ collapseRunsGo p r b l →
      c = r ∨ (c ∈ l ∧ p c = false) := by
  intro l
  induction l with
  | nil => intro b c hc; simp [collapseRunsGo] at hc
  | cons c0 rest ih =>
    intro b c hc
    cases hp : p c0 with
    | true =>
      cases b with
      | true =>
        rw [collapseRunsGo_cons_skip p r c0 rest hp] at hc
        rcases ih true c hc with h | ⟨hm, hf⟩
        · exact Or.inl h
        · exact Or.inr ⟨List.mem_cons_of_mem _ hm, hf⟩
      | false =>
        rw [collapseRunsGo_cons_emit p r c0 rest hp] at hc
        rcases List.mem_cons.mp hc with rfl | hc'
        · exact Or.inl rfl
        · rcases ih true c hc' with h | ⟨hm, hf⟩
          · exact Or.inl h
          · exact Or.inr ⟨List.mem_cons_of_mem _ hm, hf⟩
    | false =>
      rw [collapseRunsGo_cons_copy p r c0 rest b hp] at hc
      rcases List.mem_cons.mp hc with rfl | hc'
      · exact Or.inr ⟨List.mem_cons_self _ _, hp⟩
      · rcases ih false c hc' with h | ⟨hm, hf⟩
        · exact Or.inl h
        · exact Or.inr ⟨List.mem_cons_of_mem _ hm, hf⟩

/-- In run-skipping mode the next emitted character never satisfies `p`. -/
theorem collapseRunsGo_head_true (p : Char → Bool) (r : Char) :
    ∀ (l : List Char) (c : Char),
      (collapseRunsGo p r true l).head? = some c → p c = false := by
  intro l
  induction l with
  | nil => intro c h; simp [collapseRunsGo] at h
  | cons c0 rest ih =>
    intro c h
    cases hp : p c0 with
    | true =>
      rw [collapseRunsGo_cons_skip p r c0 rest hp] at h
      exact ih c h
    | false =>
      rw [collapseRunsGo_cons_copy p r c0 rest true hp] at h
      simp only [List.head?_cons, Option.some.injEq] at h
      subst h
      exact hp

/-- The output of `collapseRunsGo` never contains two adjacent characters
that both satisfy `p`. -/
theorem collapseRunsGo_chain (p : Char → Bool) (r : Char) :
    ∀ (l : List Char) (b : Bool),
      List.Chain' (fun a d => ¬(p a = true ∧ p d = true))
        (collapseRunsGo p r b l) := by
  intro l
  induction l with
  | nil => intro b; simp [collapseRunsGo]
  | cons c0 rest ih =>
    intro b
    cases hp : p c0 with
    | true =>
      cases b with
      | true =>
        rw [collapseRunsGo_cons_skip p r c0 rest hp]
        exact ih true
      | false =>
        rw [collapseRunsGo_cons_emit p r c0 rest hp]
        rw [List.chain'_cons']
        refine ⟨?_, ih true⟩
        intro y hy hcon
        have hfy := collapseRunsGo_head_true p r rest y hy
        rw [hfy] at hcon
        exact Bool.false_ne_true hcon.2
    | false =>
      rw [collapseRunsGo_cons_copy p r c0 rest b hp]
      rw [List.chain'_cons']
      refine ⟨?_, ih false⟩
      intro y hy hcon
      rw [hp] at hcon
      exact Bool.false_ne_true hcon.1

/-- Characters surviving the forbidden-character replacement are never
forbidden. -/
theorem sanitizeMap_not_forbidden (l : List Char) :
    ∀ c ∈ l.map (fun c => if sanitizeForbidden c then '_' else c),
      sanitizeForbidden c = false := by
  intro c hc
  rcases List.mem_map.mp hc with ⟨a, _, rfl⟩
  by_cases h : sanitizeForbidden a
  · rw [if_pos h]; decide
  · rw [if_neg h]; exact Bool.eq_false_iff.mpr h

/-- Equation: `dropTrailing` on a head whose tail trims to nothing. -/
theorem dropTrailing_cons_nil (p : Char → Bool) (c0 : Char)
    (rest : List Char) (hdt : dropTrailing p rest = []) :
    dropTrailing p (c0 :: rest) = if p c0 then [] else [c0] := by
  simp [dropTrailing, hdt]

/-- Equation: `dropTrailing` on a head whose tail keeps characters. -/
theorem dropTrailing_cons_cons (p : Char → Bool) (c0 d : Char)
    (rest ds : List Char) (hdt : dropTrailing p rest = d :: ds) :
    dropTrailing p (c0 :: rest) = c0 :: d :: ds := by
  simp [dropTrailing, hdt]

/-- The function `dropTrailing` returns a prefix of its input. -/
theorem dropTrailing_append (p : Char → Bool) :
    ∀ l : List Char, ∃ t, dropTrailing p l ++ t = l := by
  intro l
  induction l with
  | nil => exact ⟨[], rfl⟩
  | cons c0 rest ih =>
    obtain ⟨t0, ht0⟩ := ih
    cases hdt : dropTrailing p rest with
    | nil =>
      cases hp : p c0 with
      | true =>
        refine ⟨c0 :: rest, ?_⟩
        rw [dropTrailing_cons_nil p c0 rest hdt, if_pos hp]
        rfl
      | false =>
        rw [hdt] at ht0
        simp only [List.nil_append] at ht0
        refine ⟨t0, ?_⟩
        rw [dropTrailing_cons_nil p c0 rest hdt, if_neg (by simp [hp])]
        rw [List.singleton_append, ht0]
    | cons d ds =>
      rw [hdt] at ht0
      refine ⟨t0, ?_⟩
      rw [dropTrailing_cons_cons p c0 d rest ds hdt, List.cons_append]
      rw [List.cons_append] at ht0 ⊢
      rw [ht0]

/-- The head of `dropTrailing p l`, when present, is the head of `l`. -/
theorem dropTrailing_head (p : Char → Bool) :
    ∀ (l : List Char) (c : Char),
      (dropTrailing p l).head? = some c → l.head? = some c := by
  intro l c h
  cases l with
  | nil => simp [dropTrailing] at h
  | cons c0 rest =>
    cases hdt : dropTrailing p rest with
    | nil =>
      rw [dropTrailing_cons_nil p c0 rest hdt] at h
      cases hp : p c0 with
      | true => rw [if_pos hp] at h; simp at h
      | false =>
        rw [if_neg (by simp [hp])] at h
        simpa using h
    | cons d ds =>
      rw [dropTrailing_cons_cons p c0 d rest ds hdt] at h
      simpa using h

/-- The last character left by `dropTrailing`, when present, does not
satisfy `p`. -/
theorem dropTrailing_getLast (p : Char → Bool) :
    ∀ (l : List Char) (c : Char),
      (dropTrailing p l).getLast? = some c → p c = false := by
  intro l
  induction l with
  | nil => intro c h; simp [dropTrailing] at h
  | cons c0 rest ih =>
    intro c h
    cases hdt : dropTrailing p rest with
    | nil =>
      rw [dropTrailing_cons_nil p c0 rest hdt] at h
      cases hp : p c0 with
      | true => rw [if_pos hp] at h; simp at h
      | false =>
        rw [if_neg (by simp [hp])] at h
        simp only [List.getLast?_singleton, Option.some.injEq] at h
        subst h
        exact hp
    | cons d ds =>
      rw [dropTrailing_cons_cons p c0 d rest ds hdt] at h
      rw [List.getLast?_cons_cons, ← hdt] at h
      exact ih c h

/-- The head survivor of `dropWhile p`, when present, does not satisfy
`p`. -/
theorem head_dropWhile_not (p : Char → Bool) :
    ∀ (l : List Char) (c : Char),
      ((l.dropWhile p).head? = some c) → p c = false := by
  intro l
  induction l with
  | nil => intro c h; simp at h
  | cons c0 rest ih =>
    intro c h
    cases hp : p c0 with
    | true =>
      rw [List.dropWhile_cons_of_pos hp] at h
      exact ih c h
    | false =>
      rw [List.dropWhile_cons_of_neg (by simp [hp])] at h
      simp only [List.head?_cons, Option.some.injEq] at h
      subst h
      exact hp

/-- A left factor of a chain is a chain. -/
theorem chain_of_append_left {R : Char → Char → Prop} (t s : List Char)
    (h : List.Chain' R (t ++ s)) : List.Chain' R t :=
  (List.chain'_append.mp h).1

/-- All the structural facts about the `sanitize` pipeline on a character
list, established once and instantiated by the claim theorem. -/
theorem sanitizeL_props (l₀ : List Char) :
    (∀ c ∈ sanitizeL l₀, sanitizeForbidden c = false)
    ∧ (∀ c ∈ sanitizeL l₀, jsWs c = true → c = ' ')
    ∧ List.Chain' (fun a b => ¬(jsWs a = true ∧ jsWs b = true)) (sanitizeL l₀)
    ∧ (∀ c, (sanitizeL l₀).head? = some c → jsWs c = false)
    ∧ (sanitizeL l₀).length ≤ 180
    ∧ ((sanitizeCore l₀).length ≤ 180 →
        ∀ c, (sanitizeL l₀).getLast? = some c → jsWs c = false) := by
  obtain ⟨tdw, htdw⟩ :
      ∃ t, t ++ (collapseRuns jsWs ' '
        (l₀.map (fun c => if sanitizeForbidden c then '_' else c))).dropWhile
          jsWs =
        collapseRuns jsWs ' '
          (l₀.map (fun c => if sanitizeForbidden c then '_' else c)) :=
    List.dropWhile_suffix jsWs
  obtain ⟨tdt, htdt⟩ := dropTrailing_append jsWs
    ((collapseRuns jsWs ' '
      (l₀.map (fun c => if sanitizeForbidden c then '_' else c))).dropWhile
        jsWs)
  have htk := List.take_append_drop 180 (sanitizeCore l₀)
  have hmem_s2 : ∀ c ∈ sanitizeL l₀,
      c ∈ collapseRuns jsWs ' '
        (l₀.map (fun c => if sanitizeForbidden c then '_' else c)) := by
    intro c hc
    have h1 : c ∈ sanitizeCore l₀ := by
      rw [← htk]; exact List.mem_append.mpr (Or.inl hc)
    have h2 : c ∈ (collapseRuns jsWs ' '
        (l₀.map (fun c => if sanitizeForbidden c then '_' else c))).dropWhile
          jsWs := by
      rw [← htdt]; exact List.mem_append.mpr (Or.inl h1)
    rw [← htdw]; exact List.mem_append.mpr (Or.inr h2)
  refine ⟨?_, ?_, ?_, ?_, ?_, ?_⟩
  · intro c hc
    rcases collapseRunsGo_mem jsWs ' '
        (l₀.map (fun c => if sanitizeForbidden c then '_' else c)) false c
        (hmem_s2 c hc) with h | ⟨hm, _⟩
    · rw [h]; decide
    · exact sanitizeMap_not_forbidden l₀ c hm
  · intro c hc hw
    rcases collapseRunsGo_mem jsWs ' '
        (l₀.map (fun c => if sanitizeForbidden c then '_' else c)) false c
        (hmem_s2 c hc) with h | ⟨_, hf⟩
    · exact h
    · rw [hf] at hw; exact absurd hw Bool.false_ne_true
  · have hc2 : List.Chain' (fun a d => ¬(jsWs a = true ∧ jsWs d = true))
        (collapseRuns jsWs ' '
          (l₀.map (fun c => if sanitizeForbidden c then '_' else c))) :=
      collapseRunsGo_chain jsWs ' '
        (l₀.map (fun c => if sanitizeForbidden c then '_' else c)) false
    rw [← htdw] at hc2
    have hc3 := (List.chain'_append.mp hc2).2.1
    rw [← htdt] at hc3
    have hc4 : List.Chain' (fun a d => ¬(jsWs a = true ∧ jsWs d = true))
        (sanitizeCore l₀) := chain_of_append_left _ _ hc3
    rw [← htk] at hc4
    exact chain_of_append_left _ _ hc4
  · intro c hc
    have hcore : (sanitizeCore l₀).head? = some c := by
      unfold sanitizeL at hc
      cases hc0 : sanitizeCore l₀ with
      | nil => rw [hc0] at hc; simp at hc
      | cons a t =>
        rw [hc0] at hc
        have : (a :: t).take 180 = a :: t.take 179 := rfl
        rw [this] at hc
        simp only [List.head?_cons, Option.some.injEq] at hc
        subst hc
        rfl
    have hs3 := dropTrailing_head jsWs _ c hcore
    exact head_dropWhile_not jsWs _ c hs3
  · unfold sanitizeL
    rw [List.length_take]
    exact min_le_left _ _
  · intro hlen c hc
    unfold sanitizeL at hc
    rw [List.take_of_length_le hlen] at hc
    exact dropTrailing_getLast jsWs _ c hc

/-- C10 (amended): for every input string (also a `null`/`undefined`
one), the sanitized base name contains none of `< > : " / \ | ? *` and no
ASCII control characters; every whitespace character remaining in it is a
single plain space and no two whitespace characters are adjacent; the
first character is never whitespace; the length is at most 180; and the
last character is not whitespace **provided the trimmed, collapsed string
did not have to be truncated at 180 characters** — the final
`slice(0, 180)` runs after `trim()` and can cut right after an internal
space, leaving a trailing space. -/
theorem sanitize_props_amended (o : Option String) :
    (∀ c ∈ (sanitizeOpt o).data, sanitizeForbidden c = false)
    ∧ (∀ c ∈ (sanitizeOpt o).data, jsWs c = true → c = ' ')
    ∧ List.Chain' (fun a b => ¬(jsWs a = true ∧ jsWs b = true))
        (sanitizeOpt o).data
    ∧ (∀ c, (sanitizeOpt o).data.head? = some c → jsWs c = false)
    ∧ (sanitizeOpt o).data.length ≤ 180
    ∧ ((sanitizeCore (o.getD "").data).length ≤ 180 →
        ∀ c, (sanitizeOpt o).data.getLast? = some c → jsWs c = false) :=
  sanitizeL_props (o.getD "").data

/-- C10 counterexample input: 179 `a`s, one space, then `b` — after
sanitizing, the 180-character cut falls immediately after the internal
space. -/
def c10Input : List Char := List.replicate 179 'a' ++ [' ', 'b']

set_option maxRecDepth 40000 in
/-- C10 counterexample: the sanitized name of `c10Input` ends in a space,
so the output is not always free of trailing whitespace. -/
theorem sanitize_props_cex :
    (sanitizeL c10Input).getLast? = some ' ' ∧ jsWs ' ' = true := by
  constructor
  · rfl
  · rfl

/-- C10 witness: on a short input the truncation does not occur and the
result has no trailing whitespace. -/
theorem sanitize_props_witness :
    (sanitizeCore ((some " a  b ").getD "").data).length ≤ 180
    ∧ (∀ c, (sanitizeOpt (some " a  b ")).data.getLast? = some c →
        jsWs c = false) :=
  ⟨by decide, (sanitize_props_amended (some " a  b ")).2.2.2.2.2 (by decide)⟩

/-- C3 (amended): running download-and-validate twice on identical byte
content yields a duplicate second outcome — carrying the already-stored
path, raising no error, removing its temporary file and appending nothing
to the hash index — **provided the first run's record is present in the
in-memory hash index when the second runs** (which is the case after a
restart, because the index file is reloaded at startup; within one
process the `seen` map is not updated after a save).  Under that
condition the two runs together append exactly one record for the
digest. -/
theorem dedup_idempotence_amended (hash : List ℕ → String)
    (seen : List HashRec) (ct : String) (content : List ℕ)
    (destBase1 destBase2 : String)
    (hfresh : seenLookup seen (hash content) = none)
    (hsize : ¬content.length < 1024)
    (himg : ¬(looksImage ct = false ∧ magicKind (content.take 64) = none)) :
    (downloadValidated hash seen ct content destBase1).1 =
      .ok (.saved
        (destBase1 ++ extFor ((magicKind (content.take 64)).getD .jpg))
        (hash content) content.length)
    ∧ appendsOf (downloadValidated hash seen ct content destBase1).2 =
      [⟨hash content,
        destBase1 ++ extFor ((magicKind (content.take 64)).getD .jpg),
        content.length⟩]
    ∧ downloadValidated hash
        (seen ++ [⟨hash content,
          destBase1 ++ extFor ((magicKind (content.take 64)).getD .jpg),
          content.length⟩]) ct content destBase2 =
      (.ok (.dup
          (destBase1 ++ extFor ((magicKind (content.take 64)).getD .jpg))
          (hash content) content.length),
        [.writeTemp (destBase2 ++ ".part"),
          .unlinkTemp (destBase2 ++ ".part")]) := by
  have hlook2 : seenLookup
      (seen ++ [⟨hash content,
        destBase1 ++ extFor ((magicKind (content.take 64)).getD .jpg),
        content.length⟩]) (hash content) =
      some ⟨hash content,
        destBase1 ++ extFor ((magicKind (content.take 64)).getD .jpg),
        content.length⟩ := by
    unfold seenLookup
    rw [List.reverse_append]
    simp [List.find?]
  refine ⟨?_, ?_, ?_⟩
  · unfold downloadValidated
    rw [if_neg hsize, if_neg himg, hfresh]
  · unfold downloadValidated
    rw [if_neg hsize, if_neg himg, hfresh]
    simp [appendsOf]
  · unfold downloadValidated
    rw [if_neg hsize, if_neg himg, hlook2]

/-- C3 witness: a concrete 1024-byte stream saved under base `a`, then
re-downloaded under base `b` after the index was reloaded: the second run
reports the duplicate of `a.jpg` and appends nothing. -/
theorem dedup_idempotence_witness :
    seenLookup [] (constDigest (List.replicate 1024 0)) = none
    ∧ downloadValidated constDigest
        ([] ++ [⟨constDigest (List.replicate 1024 0),
          "a" ++ extFor ((magicKind ((List.replicate 1024 0).take 64)).getD .jpg),
          (List.replicate 1024 (0 : ℕ)).length⟩]) "image/jpeg"
        (List.replicate 1024 0) "b" =
      (.ok (.dup
          ("a" ++ extFor ((magicKind ((List.replicate 1024 0).take 64)).getD .jpg))
          (constDigest (List.replicate 1024 0))
          (List.replicate 1024 (0 : ℕ)).length),
        [.writeTemp ("b" ++ ".part"), .unlinkTemp ("b" ++ ".part")]) :=
  ⟨rfl,
    (dedup_idempotence_amended constDigest [] "image/jpeg"
      (List.replicate 1024 0) "a" "b" rfl
      (by rw [List.length_replicate]; norm_num)
      (by rw [Classical.not_and_iff_or_not_not]; left; decide)).2.2⟩

set_option maxRecDepth 20000 in
/-- C3 counterexample: within a single process the in-memory `seen` map is
never updated after a save, so the *same* `seen` (here empty) is consulted
by both invocations: identical content downloaded twice is saved twice,
two index records are appended for one digest, and the second outcome is
`saved`, not `duplicate`. -/
theorem dedup_idempotence_cex :
    (downloadValidated constDigest [] "image/jpeg"
      (List.replicate 1024 0) "a").1 = .ok (.saved "a.jpg" "d0" 1024)
    ∧ appendsOf (downloadValidated constDigest [] "image/jpeg"
        (List.replicate 1024 0) "a").2 = [⟨"d0", "a.jpg", 1024⟩]
    ∧ (downloadValidated constDigest [] "image/jpeg"
        (List.replicate 1024 0) "b").1 = .ok (.saved "b.jpg" "d0" 1024)
    ∧ appendsOf (downloadValidated constDigest [] "image/jpeg"
        (List.replicate 1024 0) "b").2 = [⟨"d0", "b.jpg", 1024⟩] := by
  refine ⟨rfl, rfl, rfl, rfl⟩

/-! ### Lemmas for the bounded worker pool -/

/-- Filling never loses or invents work: the ghost admission log plus the
queue is invariant. -/
theorem poolFillGo_started_q {α : Type} (conc : ℕ) :
    ∀ (q running started : List α),
      (poolFillGo conc q running started).started ++
        (poolFillGo conc q running started).q = started ++ q := by
  intro q
  induction q with
  | nil => intro running started; simp [poolFillGo]
  | cons it rest ih =>
    intro running started
    unfold poolFillGo
    by_cases h : running.length < conc
    · rw [if_pos h, ih]
      simp
    · rw [if_neg h]

/-- Filling respects the concurrency ceiling. -/
theorem poolFillGo_run_le {α : Type} (conc : ℕ) :
    ∀ (q running started : List α), running.length ≤ conc →
      (poolFillGo conc q running started).running.length ≤ conc := by
  intro q
  induction q with
  | nil => intro running started h; exact h
  | cons it rest ih =>
    intro running started h
    unfold poolFillGo
    by_cases hlt : running.length < conc
    · rw [if_pos hlt]
      apply ih
      simp only [List.length_append, List.length_singleton]
      omega
    · rw [if_neg hlt]
      exact h

/-- Filling moves items without changing their total number. -/
theorem poolFillGo_count {α : Type} (conc : ℕ) :
    ∀ (q running started : List α),
      (poolFillGo conc q running started).q.length +
        (poolFillGo conc q running started).running.length =
      q.length + running.length := by
  intro q
  induction q with
  | nil => intro running started; simp [poolFillGo]
  | cons it rest ih =>
    intro running started
    unfold poolFillGo
    by_cases h : running.length < conc
    · rw [if_pos h, ih]
      simp only [List.length_append, List.length_cons, List.length_nil]
      omega
    · rw [if_neg h]

/-- With a positive ceiling and pending or in-flight work, filling leaves
at least one task in flight. -/
theorem poolFillGo_run_ne {α : Type} (conc : ℕ) (hc : 1 ≤ conc) :
    ∀ (q running started : List α), q ≠ [] ∨ running ≠ [] →
      (poolFillGo conc q running started).running ≠ [] := by
  intro q
  induction q with
  | nil =>
    intro running started hne
    rcases hne with h | h
    · exact absurd rfl h
    · exact h
  | cons it rest ih =>
    intro running started hne
    unfold poolFillGo
    by_cases h : running.length < conc
    · rw [if_pos h]
      apply ih
      right
      simp
    · rw [if_neg h]
      show running ≠ []
      have hlen : 1 ≤ running.length := by omega
      exact List.ne_nil_of_length_pos (by omega)

/-- The pool invariant: the ceiling is respected and the admission log
followed by the queue is exactly the original work list. -/
def PoolInv {α : Type} (items : List α) (conc : ℕ) (s : PoolState α) : Prop :=
  s.running.length ≤ conc ∧ s.started ++ s.q = items

/-- One pool iteration preserves the invariant. -/
theorem poolIter_preserves {α : Type} (items : List α) (conc : ℕ)
    (s t : PoolState α) (h : PoolIter conc s t)
    (hinv : PoolInv items conc s) : PoolInv items conc t := by
  cases h with
  | step i hne hi =>
    constructor
    · have hle : (poolFill conc s).running.length ≤ conc :=
        poolFillGo_run_le conc s.q s.running s.started hinv.1
      have herase : ((poolFill conc s).running.eraseIdx i).length + 1 =
          (poolFill conc s).running.length := List.length_eraseIdx_add_one hi
      show ((poolFill conc s).running.eraseIdx i).length ≤ conc
      omega
    · have hsq : (poolFill conc s).started ++ (poolFill conc s).q =
          s.started ++ s.q := poolFillGo_started_q conc s.q s.running s.started
      show (poolFill conc s).started ++ (poolFill conc s).q = items
      rw [hsq, hinv.2]

/-- Every reachable state satisfies the invariant. -/
theorem poolReach_inv {α : Type} (items : List α) (conc : ℕ)
    (s t : PoolState α) (hr : PoolReach conc s t)
    (h : PoolInv items conc s) : PoolInv items conc t := by
  have hr' : Relation.ReflTransGen (PoolIter conc) s t := hr
  clear hr
  induction hr' with
  | refl => exact h
  | tail hab hbc ih => exact poolIter_preserves items conc _ _ hbc ih

/-- While the loop condition holds, one more iteration is possible. -/
theorem poolIter_progress {α : Type} (conc : ℕ) (hc : 1 ≤ conc)
    (s : PoolState α) (hne : s.q ≠ [] ∨ s.running ≠ []) :
    ∃ t, PoolIter conc s t := by
  have hrun : (poolFill conc s).running ≠ [] :=
    poolFillGo_run_ne conc hc s.q s.running s.started hne
  have hlen : 0 < (poolFill conc s).running.length :=
    List.length_pos.mpr hrun
  exact ⟨_, PoolIter.step s 0 hne hlen⟩

/-- From any state, the pool reaches the terminal state with an empty
queue and nothing in flight. -/
theorem pool_terminates {α : Type} (conc : ℕ) (hc : 1 ≤ conc) :
    ∀ (n : ℕ) (s : PoolState α), s.q.length + s.running.length ≤ n →
      ∃ t, PoolReach conc s t ∧ t.q = [] ∧ t.running = [] := by
  intro n
  induction n with
  | zero =>
    intro s h
    refine ⟨s, Relation.ReflTransGen.refl, ?_, ?_⟩
    · exact List.length_eq_zero.mp (by omega)
    · exact List.length_eq_zero.mp (by omega)
  | succ n ih =>
    intro s h
    by_cases hend : s.q = [] ∧ s.running = []
    · exact ⟨s, Relation.ReflTransGen.refl, hend.1, hend.2⟩
    · have hne : s.q ≠ [] ∨ s.running ≠ [] := by
        rcases Classical.em (s.q = []) with hq | hq
        · right; intro hr; exact hend ⟨hq, hr⟩
        · left; exact hq
      obtain ⟨t, ht⟩ := poolIter_progress conc hc s hne
      have hmeas : t.q.length + t.running.length ≤ n := by
        cases ht with
        | step i hne' hi =>
          have hcount : (poolFill conc s).q.length +
              (poolFill conc s).running.length =
              s.q.length + s.running.length :=
            poolFillGo_count conc s.q s.running s.started
          have herase : ((poolFill conc s).running.eraseIdx i).length + 1 =
              (poolFill conc s).running.length :=
            List.length_eraseIdx_add_one hi
          show (poolFill conc s).q.length +
            ((poolFill conc s).running.eraseIdx i).length ≤ n
          omega
      obtain ⟨u, hu, huq, hur⟩ := ih t hmeas
      exact ⟨u, Relation.ReflTransGen.head ht hu, huq, hur⟩

/-- C9: for every work list and ceiling `conc ≥ 1`, along every run of
the pool loop: at most `conc` worker invocations are in flight (both
between iterations and during the `Promise.race` wait), items are
admitted in exactly the queue order (the admission log followed by the
remaining queue is always the original list), the loop can stop only with
an empty queue and nothing in flight — otherwise another iteration is
enabled — and the terminal state is always reached. -/
theorem worker_pool_contract {α : Type} (items : List α) (conc : ℕ)
    (hc : 1 ≤ conc) (s : PoolState α)
    (hreach : PoolReach conc (initPool items) s) :
    s.running.length ≤ conc
    ∧ (poolFill conc s).running.length ≤ conc
    ∧ s.started ++ s.q = items
    ∧ ((s.q = [] ∧ s.running = []) ∨ ∃ t, PoolIter conc s t)
    ∧ ∃ t, PoolReach conc s t ∧ t.q = [] ∧ t.running = [] := by
  have hinv : PoolInv items conc s :=
    poolReach_inv items conc _ s hreach ⟨by simp [initPool], by simp [initPool]⟩
  refine ⟨hinv.1, ?_, hinv.2, ?_, ?_⟩
  · exact poolFillGo_run_le conc s.q s.running s.started hinv.1
  · by_cases hend : s.q = [] ∧ s.running = []
    · exact Or.inl hend
    · refine Or.inr (poolIter_progress conc hc s ?_)
      rcases Classical.em (s.q = []) with hq | hq
      · right; intro hr; exact hend ⟨hq, hr⟩
      · left; exact hq
  · exact pool_terminates conc hc (s.q.length + s.running.length) s le_rfl

/-- C9 witness: the contract instantiated on the two-item list `[0, 1]`
with ceiling 1, at the initial state. -/
theorem worker_pool_contract_witness :
    1 ≤ 1
    ∧ ((initPool [0, 1]).running.length ≤ 1
      ∧ (poolFill 1 (initPool [0, 1])).running.length ≤ 1
      ∧ (initPool [0, 1]).started ++ (initPool [0, 1]).q = [0, 1]
      ∧ (((initPool [0, 1]).q = [] ∧ (initPool [0, 1]).running = [])
          ∨ ∃ t, PoolIter 1 (initPool [0, 1]) t)
      ∧ ∃ t, PoolReach 1 (initPool [0, 1]) t ∧ t.q = [] ∧ t.running = []) :=
  ⟨le_rfl, worker_pool_contract [0, 1] 1 le_rfl (initPool [0, 1])
    Relation.ReflTransGen.refl⟩

/-! ### Lemmas for the quota gate -/

/-- Reading `getD` on an append, inside the left list. -/
theorem getD_append_lt {β : Type} :
    ∀ (l₁ l₂ : List β) (k : ℕ) (d : β), k < l₁.length →
      (l₁ ++ l₂).getD k d = l₁.getD k d := by
  intro l₁
  induction l₁ with
  | nil => intro l₂ k d hk; simp at hk
  | cons a t ih =>
    intro l₂ k d hk
    cases k with
    | zero => rfl
    | succ k =>
      simp only [List.cons_append, List.getD_cons_succ]
      exact ih l₂ k d (by simp at hk; omega)

/-- Reading `getD` on an append, at the first position of the right list. -/
theorem getD_append_len {β : Type} :
    ∀ (l₁ l₂ : List β) (e d : β),
      (l₁ ++ e :: l₂).getD l₁.length d = e := by
  intro l₁
  induction l₁ with
  | nil => intro l₂ e d; rfl
  | cons a t ih =>
    intro l₂ e d
    simp only [List.cons_append, List.length_cons, List.getD_cons_succ]
    exact ih l₂ e d

/-- Taking `take` of an append, within the left list. -/
theorem take_append_le {β : Type} :
    ∀ (l₁ l₂ : List β) (k : ℕ), k ≤ l₁.length →
      (l₁ ++ l₂).take k = l₁.take k := by
  intro l₁
  induction l₁ with
  | nil =>
    intro l₂ k hk
    simp at hk
    subst hk
    rfl
  | cons a t ih =>
    intro l₂ k hk
    cases k with
    | zero => rfl
    | succ k =>
      simp only [List.cons_append, List.take_succ_cons]
      rw [ih l₂ k (by simp at hk; omega)]

/-- Writing `set` then reading `getD` at the written index. -/
theorem getD_set_self {β : Type} :
    ∀ (l : List β) (i : ℕ) (a d : β), i < l.length →
      (l.set i a).getD i d = a := by
  intro l
  induction l with
  | nil => intro i a d hi; simp at hi
  | cons b t ih =>
    intro i a d hi
    cases i with
    | zero => rfl
    | succ i =>
      simp only [List.set_cons_succ, List.getD_cons_succ]
      exact ih i a d (by simp at hi; omega)

/-- Writing `set` then reading `getD` at another index. -/
theorem getD_set_ne {β : Type} :
    ∀ (l : List β) (i j : ℕ) (a d : β), j ≠ i →
      (l.set i a).getD j d = l.getD j d := by
  intro l
  induction l with
  | nil => intro i j a d hne; rfl
  | cons b t ih =>
    intro i j a d hne
    cases i with
    | zero =>
      cases j with
      | zero => exact absurd rfl hne
      | succ j => rfl
    | succ i =>
      cases j with
      | zero => rfl
      | succ j =>
        simp only [List.set_cons_succ, List.getD_cons_succ]
        exact ih i j a d (by omega)

/-- A member of a list sits at some index, read through `getD`. -/
theorem exists_getD_of_mem {β : Type} :
    ∀ (l : List β) (e d : β), e ∈ l →
      ∃ k, k < l.length ∧ l.getD k d = e := by
  intro l
  induction l with
  | nil => intro e d he; simp at he
  | cons a t ih =>
    intro e d he
    rcases List.mem_cons.mp he with rfl | he'
    · exact ⟨0, by simp, rfl⟩
    · obtain ⟨k, hk, hgd⟩ := ih e d he'
      exact ⟨k + 1, by simp; omega, hgd⟩

/-- One step of the quota machine never shrinks the token list. -/
theorem qStep_tokens_le (s : QState) (e : QEvent) :
    s.tokens.length ≤ (qStep s e).tokens.length := by
  cases e with
  | take =>
    show s.tokens.length ≤ (qTake s).tokens.length
    unfold qTake
    by_cases h : s.remaining = 0
    · rw [if_pos h]
    · rw [if_neg h]; simp
  | commit i =>
    show s.tokens.length ≤ (qCommit s i).tokens.length
    unfold qCommit
    simp
  | release i =>
    show s.tokens.length ≤ (qRelease s i).tokens.length
    unfold qRelease
    by_cases h : s.tokens.getD i true = false
    · rw [if_pos h]
    · rw [if_neg h]

/-- Folding more events never shrinks the token list. -/
theorem tokens_le_foldl :
    ∀ (l : List QEvent) (s : QState),
      s.tokens.length ≤ (l.foldl qStep s).tokens.length := by
  intro l
  induction l with
  | nil => intro s; exact le_rfl
  | cons e rest ih =>
    intro s
    exact le_trans (qStep_tokens_le s e) (ih (qStep s e))

/-- Running an extended trace applies the extra step at the end. -/
theorem qRun_append (L : ℕ) (tr : List QEvent) (e : QEvent) :
    qRun L (tr ++ [e]) = qStep (qRun L tr) e := by
  unfold qRun
  rw [List.foldl_append]
  rfl

/-- The number of handed-out tokens is monotone along trace prefixes. -/
theorem takesCount_take_le (L : ℕ) (tr : List QEvent) (k : ℕ) :
    takesCount L (tr.take k) ≤ takesCount L tr := by
  unfold takesCount qRun
  conv_rhs => rw [← List.take_append_drop k tr]
  rw [List.foldl_append]
  exact tokens_le_foldl (tr.drop k) _

/-- A trace remains well formed after removing its last event. -/
theorem wfA_of_append (L : ℕ) (tr : List QEvent) (e : QEvent)
    (h : qWFAmended L (tr ++ [e])) : qWFAmended L tr := by
  obtain ⟨href, hdup, hrel⟩ := h
  have hlen : (tr ++ [e]).length = tr.length + 1 := by simp
  refine ⟨?_, ?_, ?_⟩
  · intro k hk
    have h1 := href k (by omega)
    unfold eventRefOk at h1 ⊢
    rw [getD_append_lt tr [e] k .take hk,
      take_append_le tr [e] k (le_of_lt hk)] at h1
    exact h1
  · intro k₁ hk₁ k₂ hk₂ hlt
    have h2 := hdup k₁ (by omega) k₂ (by omega) hlt
    rw [getD_append_lt tr [e] k₁ .take hk₁,
      getD_append_lt tr [e] k₂ .take hk₂] at h2
    exact h2
  · intro k₁ hk₁ k₂ hk₂ hlt
    have h2 := hrel k₁ (by omega) k₂ (by omega) hlt
    rw [getD_append_lt tr [e] k₁ .take hk₁,
      getD_append_lt tr [e] k₂ .take hk₂] at h2
    exact h2

/-- What well-formedness says about a trailing `commit i`: the token was
handed out, not yet committed, and not released. -/
theorem wfA_last_commit (L : ℕ) (tr : List QEvent) (i : ℕ)
    (h : qWFAmended L (tr ++ [QEvent.commit i])) :
    QEvent.commit i ∉ tr ∧ QEvent.release i ∉ tr ∧ i < takesCount L tr := by
  obtain ⟨href, hdup, hrel⟩ := h
  have hlen : (tr ++ [QEvent.commit i]).length = tr.length + 1 := by simp
  refine ⟨?_, ?_, ?_⟩
  · intro hmem
    obtain ⟨k, hk, hgd⟩ := exists_getD_of_mem tr (QEvent.commit i) .take hmem
    have h2 := hdup k (by omega) tr.length (by omega) hk
    rw [getD_append_lt tr _ k .take hk, hgd,
      getD_append_len tr [] (QEvent.commit i) .take] at h2
    simp [pairNoDup] at h2
  · intro hmem
    obtain ⟨k, hk, hgd⟩ := exists_getD_of_mem tr (QEvent.release i) .take hmem
    have h2 := hrel k (by omega) tr.length (by omega) hk
    rw [getD_append_lt tr _ k .take hk, hgd,
      getD_append_len tr [] (QEvent.commit i) .take] at h2
    simp [pairNoCommitAfterRelease] at h2
  · have h1 := href tr.length (by omega)
    unfold eventRefOk at h1
    rw [getD_append_len tr [] (QEvent.commit i) .take,
      take_append_le tr _ tr.length le_rfl, List.take_length] at h1
    simpa using h1

/-- What well-formedness says about a trailing `release i`: the token was
handed out and not yet released. -/
theorem wfA_last_release (L : ℕ) (tr : List QEvent) (i : ℕ)
    (h : qWFAmended L (tr ++ [QEvent.release i])) :
    QEvent.release i ∉ tr ∧ i < takesCount L tr := by
  obtain ⟨href, hdup, _⟩ := h
  have hlen : (tr ++ [QEvent.release i]).length = tr.length + 1 := by simp
  refine ⟨?_, ?_⟩
  · intro hmem
    obtain ⟨k, hk, hgd⟩ := exists_getD_of_mem tr (QEvent.release i) .take hmem
    have h2 := hdup k (by omega) tr.length (by omega) hk
    rw [getD_append_lt tr _ k .take hk, hgd,
      getD_append_len tr [] (QEvent.release i) .take] at h2
    simp [pairNoDup] at h2
  · have h1 := href tr.length (by omega)
    unfold eventRefOk at h1
    rw [getD_append_len tr [] (QEvent.release i) .take,
      take_append_le tr _ tr.length le_rfl, List.take_length] at h1
    simpa using h1

/-- Tokens not yet handed out have no `commit`/`release` events in the
trace. -/
theorem wfA_fresh (L : ℕ) (tr : List QEvent) (e : QEvent)
    (h : qWFAmended L (tr ++ [e])) (i : ℕ) (hi : takesCount L tr ≤ i) :
    QEvent.commit i ∉ tr ∧ QEvent.release i ∉ tr := by
  obtain ⟨href, _, _⟩ := h
  have hlen : (tr ++ [e]).length = tr.length + 1 := by simp
  constructor
  · intro hmem
    obtain ⟨k, hk, hgd⟩ := exists_getD_of_mem tr (QEvent.commit i) .take hmem
    have h1 := href k (by omega)
    unfold eventRefOk at h1
    rw [getD_append_lt tr _ k .take hk, hgd,
      take_append_le tr _ k (le_of_lt hk)] at h1
    simp only [decide_eq_true_eq] at h1
    have := takesCount_take_le L tr k
    omega
  · intro hmem
    obtain ⟨k, hk, hgd⟩ := exists_getD_of_mem tr (QEvent.release i) .take hmem
    have h1 := href k (by omega)
    unfold eventRefOk at h1
    rw [getD_append_lt tr _ k .take hk, hgd,
      take_append_le tr _ k (le_of_lt hk)] at h1
    simp only [decide_eq_true_eq] at h1
    have := takesCount_take_le L tr k
    omega

/-- Counting a predicate over `range n` is invariant under pointwise
equivalence below `n`. -/
theorem card_filter_congr_lt (n : ℕ) (p q : ℕ → Prop)
    [DecidablePred p] [DecidablePred q] (h : ∀ j, j < n → (p j ↔ q j)) :
    ((Finset.range n).filter q).card = ((Finset.range n).filter p).card := by
  have hset : (Finset.range n).filter q = (Finset.range n).filter p := by
    apply Finset.ext
    intro j
    simp only [Finset.mem_filter, Finset.mem_range]
    constructor
    · rintro ⟨hj, hq⟩; exact ⟨hj, (h j hj).mpr hq⟩
    · rintro ⟨hj, hp⟩; exact ⟨hj, (h j hj).mp hp⟩
  rw [hset]

/-- Counting grows by exactly one when the predicate flips from false to
true at a single index below `n`. -/
theorem card_filter_flip (n i : ℕ) (p q : ℕ → Prop)
    [DecidablePred p] [DecidablePred q] (hi : i < n) (hpi : ¬p i) (hqi : q i)
    (hagree : ∀ j, j < n → j ≠ i → (p j ↔ q j)) :
    ((Finset.range n).filter q).card = ((Finset.range n).filter p).card + 1 := by
  have hset : (Finset.range n).filter q =
      insert i ((Finset.range n).filter p) := by
    apply Finset.ext
    intro j
    simp only [Finset.mem_filter, Finset.mem_range, Finset.mem_insert]
    constructor
    · rintro ⟨hj, hq⟩
      by_cases hji : j = i
      · exact Or.inl hji
      · exact Or.inr ⟨hj, (hagree j hj hji).mpr hq⟩
    · rintro (rfl | ⟨hj, hp⟩)
      · exact ⟨hi, hqi⟩
      · refine ⟨hj, ?_⟩
        by_cases hji : j = i
        · subst hji; exact absurd hp hpi
        · exact (hagree j hj hji).mp hp
  rw [hset, Finset.card_insert_of_not_mem]
  intro hmem
  simp only [Finset.mem_filter] at hmem
  exact hpi hmem.2

/-- Counting over `range (n+1)` when the predicate holds at `n`. -/
theorem card_filter_range_succ_pos (n : ℕ) (p : ℕ → Prop)
    [DecidablePred p] (hp : p n) :
    ((Finset.range (n + 1)).filter p).card =
      ((Finset.range n).filter p).card + 1 := by
  rw [Finset.range_succ, Finset.filter_insert, if_pos hp,
    Finset.card_insert_of_not_mem]
  intro hmem
  simp only [Finset.mem_filter, Finset.mem_range] at hmem
  exact absurd hmem.1 (lt_irrefl n)

/-- Counting over `range (n+1)` when the predicate fails at `n`. -/
theorem card_filter_range_succ_neg (n : ℕ) (p : ℕ → Prop)
    [DecidablePred p] (hp : ¬p n) :
    ((Finset.range (n + 1)).filter p).card =
      ((Finset.range n).filter p).card := by
  rw [Finset.range_succ, Finset.filter_insert, if_neg hp]

/-- The main quota invariant, proved by induction over the trace: for a
well-formed trace the conservation law
`remaining + outstanding + committed = L` holds, and each token's
`committed` flag agrees with the presence of its `commit` event. -/
theorem quota_state_inv (L : ℕ) :
    ∀ tr : List QEvent, qWFAmended L tr →
      ((qRun L tr).remaining + outstandingCount L tr + committedCount L tr = L
      ∧ ∀ i, i < (qRun L tr).tokens.length →
          (qRun L tr).tokens.getD i true = decide (QEvent.commit i ∈ tr)) := by
  intro tr
  induction tr using List.reverseRecOn with
  | nil =>
    intro _
    constructor
    · simp [qRun, outstandingCount, committedCount, takesCount]
    · intro i hi
      simp [qRun] at hi
  | append_singleton tr e ih =>
    intro h
    obtain ⟨hsum, hflags⟩ := ih (wfA_of_append L tr e h)
    have htcdef : takesCount L tr = (qRun L tr).tokens.length := rfl
    cases e with
    | take =>
      have hfresh := wfA_fresh L tr .take h (takesCount L tr) le_rfl
      by_cases hrem : (qRun L tr).remaining = 0
      · have hstate : qRun L (tr ++ [QEvent.take]) = qRun L tr := by
          rw [qRun_append]
          show qTake (qRun L tr) = qRun L tr
          unfold qTake
          rw [if_pos hrem]
        have htc : takesCount L (tr ++ [QEvent.take]) = takesCount L tr := by
          unfold takesCount
          rw [hstate]
        have hcc : committedCount L (tr ++ [QEvent.take]) =
            committedCount L tr := by
          unfold committedCount
          rw [htc]
          apply card_filter_congr_lt
          intro j hj
          simp
        have hoc : outstandingCount L (tr ++ [QEvent.take]) =
            outstandingCount L tr := by
          unfold outstandingCount
          rw [htc]
          apply card_filter_congr_lt
          intro j hj
          simp
        constructor
        · rw [hstate, hcc, hoc]
          exact hsum
        · intro i hi
          rw [hstate] at hi ⊢
          have hdec : decide (QEvent.commit i ∈ tr ++ [QEvent.take]) =
              decide (QEvent.commit i ∈ tr) := by simp
          rw [hdec]
          exact hflags i hi
      · have hstate : qRun L (tr ++ [QEvent.take]) =
            ⟨(qRun L tr).remaining - 1, (qRun L tr).tokens ++ [false]⟩ := by
          rw [qRun_append]
          show qTake (qRun L tr) = _
          unfold qTake
          rw [if_neg hrem]
        have htc : takesCount L (tr ++ [QEvent.take]) =
            takesCount L tr + 1 := by
          unfold takesCount
          rw [hstate]
          simp [htcdef]
        have hnotmem : ¬(QEvent.commit (takesCount L tr) ∈
            tr ++ [QEvent.take]) := by
          simp only [List.mem_append, List.mem_singleton]
          rintro (hmem | heq)
          · exact hfresh.1 hmem
          · exact QEvent.noConfusion heq
        have hcc : committedCount L (tr ++ [QEvent.take]) =
            committedCount L tr := by
          unfold committedCount
          rw [htc, card_filter_range_succ_neg _ _ hnotmem]
          apply card_filter_congr_lt
          intro j hj
          simp
        have hoc : outstandingCount L (tr ++ [QEvent.take]) =
            outstandingCount L tr + 1 := by
          unfold outstandingCount
          rw [htc, card_filter_range_succ_pos _ _ ?hptop]
          case hptop =>
            constructor
            · exact hnotmem
            · simp only [List.mem_append, List.mem_singleton]
              rintro (hmem | heq)
              · exact hfresh.2 hmem
              · exact QEvent.noConfusion heq
          congr 1
          apply card_filter_congr_lt
          intro j hj
          simp
        constructor
        · rw [hstate, hcc, hoc]
          simp only []
          omega
        · intro i hi
          rw [hstate] at hi ⊢
          simp only [List.length_append, List.length_singleton] at hi
          by_cases hin : i < (qRun L tr).tokens.length
          · rw [getD_append_lt _ _ i true hin]
            have hdec : decide (QEvent.commit i ∈ tr ++ [QEvent.take]) =
                decide (QEvent.commit i ∈ tr) := by simp
            rw [hdec]
            exact hflags i hin
          · have hieq : i = (qRun L tr).tokens.length := by omega
            subst hieq
            rw [getD_append_len _ [] false true]
            have hnm : ¬(QEvent.commit (qRun L tr).tokens.length ∈
                tr ++ [QEvent.take]) := by
              rw [← htcdef]
              exact hnotmem
            rw [decide_eq_false hnm]
    | commit i =>
      obtain ⟨hci, hri, hlt⟩ := wfA_last_commit L tr i h
      have hstate : qRun L (tr ++ [QEvent.commit i]) =
          ⟨(qRun L tr).remaining, (qRun L tr).tokens.set i true⟩ := by
        rw [qRun_append]
        rfl
      have htc : takesCount L (tr ++ [QEvent.commit i]) = takesCount L tr := by
        unfold takesCount
        rw [hstate]
        simp [htcdef]
      have hcc : committedCount L (tr ++ [QEvent.commit i]) =
          committedCount L tr + 1 := by
        unfold committedCount
        rw [htc]
        apply card_filter_flip (takesCount L tr) i _ _ hlt hci
        · simp
        · intro j hj hji
          simp [hji]
      have hoc : outstandingCount L tr =
          outstandingCount L (tr ++ [QEvent.commit i]) + 1 := by
        unfold outstandingCount
        rw [htc]
        apply card_filter_flip (takesCount L tr) i _ _ hlt
        · rintro ⟨h1, _⟩
          exact h1 (by simp)
        · exact ⟨hci, hri⟩
        · intro j hj hji
          simp [hji]
      constructor
      · rw [hstate, hcc]
        simp only []
        omega
      · intro j hj
        rw [hstate] at hj ⊢
        simp only [List.length_set] at hj
        by_cases hji : j = i
        · subst hji
          rw [getD_set_self _ j true true (by rw [← htcdef]; exact hlt)]
          have : QEvent.commit j ∈ tr ++ [QEvent.commit j] := by simp
          rw [decide_eq_true this]
        · rw [getD_set_ne _ i j true true hji]
          have hdec : decide (QEvent.commit j ∈ tr ++ [QEvent.commit i]) =
              decide (QEvent.commit j ∈ tr) := by
            simp [hji]
          rw [hdec]
          exact hflags j hj
    | release i =>
      obtain ⟨hri, hlt⟩ := wfA_last_release L tr i h
      have hflag := hflags i (by rw [← htcdef]; exact hlt)
      by_cases hci : QEvent.commit i ∈ tr
      · have hstate : qRun L (tr ++ [QEvent.release i]) = qRun L tr := by
          rw [qRun_append]
          show qRelease (qRun L tr) i = qRun L tr
          unfold qRelease
          rw [if_neg]
          rw [hflag, decide_eq_true hci]
          simp
        have htc : takesCount L (tr ++ [QEvent.release i]) =
            takesCount L tr := by
          unfold takesCount
          rw [hstate]
        have hcc : committedCount L (tr ++ [QEvent.release i]) =
            committedCount L tr := by
          unfold committedCount
          rw [htc]
          apply card_filter_congr_lt
          intro j hj
          simp
        have hoc : outstandingCount L (tr ++ [QEvent.release i]) =
            outstandingCount L tr := by
          unfold outstandingCount
          rw [htc]
          apply card_filter_congr_lt
          intro j hj
          by_cases hji : j = i
          · subst hji
            constructor
            · rintro ⟨hc, _⟩; exact absurd hci hc
            · rintro ⟨hc, _⟩
              exact absurd hci (fun hm => hc (List.mem_append_left _ hm))
          · simp [hji]
        constructor
        · rw [hstate, hcc, hoc]
          exact hsum
        · intro j hj
          rw [hstate] at hj ⊢
          have hdec : decide (QEvent.commit j ∈ tr ++ [QEvent.release i]) =
              decide (QEvent.commit j ∈ tr) := by simp
          rw [hdec]
          exact hflags j hj
      · have hstate : qRun L (tr ++ [QEvent.release i]) =
            ⟨(qRun L tr).remaining + 1, (qRun L tr).tokens⟩ := by
          rw [qRun_append]
          show qRelease (qRun L tr) i = _
          unfold qRelease
          rw [if_pos]
          rw [hflag, decide_eq_false hci]
        have htc : takesCount L (tr ++ [QEvent.release i]) =
            takesCount L tr := by
          unfold takesCount
          rw [hstate]
        have hcc : committedCount L (tr ++ [QEvent.release i]) =
            committedCount L tr := by
          unfold committedCount
          rw [htc]
          apply card_filter_congr_lt
          intro j hj
          simp
        have hoc : outstandingCount L tr =
            outstandingCount L (tr ++ [QEvent.release i]) + 1 := by
          unfold outstandingCount
          rw [htc]
          apply card_filter_flip (takesCount L tr) i _ _ hlt
          · rintro ⟨_, h2⟩
            exact h2 (by simp)
          · exact ⟨hci, hri⟩
          · intro j hj hji
            simp [hji]
        constructor
        · rw [hstate, hcc]
          simp only []
          omega
        · intro j hj
          rw [hstate] at hj ⊢
          have hdec : decide (QEvent.commit j ∈ tr ++ [QEvent.release i]) =
              decide (QEvent.commit j ∈ tr) := by simp
          rw [hdec]
          exact hflags j hj

/-- C1 (amended): for a quota created with finite positive limit `L` and
initial saved count 0, and any call trace in which each token receives at
most one `commit()` and at most one `release()` **and never a `commit()`
after its `release()`**: the conservation law
`remaining + outstanding_uncommitted + committed = L` holds at every
instant, at most `L` tokens ever reach `commit()`, once every outstanding
token is committed or released `remaining = L - committed`, and a `take()`
with `remaining = 0` returns no token and leaves the state unchanged. -/
theorem quota_exactness_amended (L : ℕ) (tr : List QEvent) (hL : 0 < L)
    (h : qWFAmended L tr) :
    (qRun L tr).remaining + outstandingCount L tr + committedCount L tr = L
    ∧ committedCount L tr ≤ L
    ∧ (outstandingCount L tr = 0 →
        (qRun L tr).remaining = L - committedCount L tr)
    ∧ ((qRun L tr).remaining = 0 →
        qRun L (tr ++ [QEvent.take]) = qRun L tr) := by
  obtain ⟨hsum, _⟩ := quota_state_inv L tr h
  refine ⟨hsum, by omega, fun h0 => by omega, ?_⟩
  intro h0
  rw [qRun_append]
  show qTake (qRun L tr) = qRun L tr
  unfold qTake
  rw [if_pos h0]

/-- C1 counterexample trace: each token gets exactly one `release()` and
one `commit()` — permitted by the claim's precondition — but the
`release()` comes first, restoring the decrement before the `commit()`
lands. -/
def c1Trace : List QEvent :=
  [.take, .release 0, .commit 0, .take, .release 1, .commit 1]

/-- C1 counterexample: under the claim's own precondition (at most one
`commit()` and at most one `release()` per token) a release-then-commit
history on each token makes two tokens reach `commit()` against limit
`L = 1`, and the claimed conservation sum equals 3, not 1. -/
theorem quota_exactness_cex :
    qWFStated 1 c1Trace
    ∧ committedCount 1 c1Trace = 2
    ∧ ¬(committedCount 1 c1Trace ≤ 1)
    ∧ (qRun 1 c1Trace).remaining + outstandingCount 1 c1Trace +
        committedCount 1 c1Trace ≠ 1 := by
  refine ⟨by decide, by decide, by decide, by decide⟩

/-- C1 witness trace: one committed token under limit 2. -/
def c1TraceW : List QEvent := [.take, .commit 0]

/-- C1 witness: the amended exactness properties instantiated on the
two-event trace `[take, commit 0]` with limit 2. -/
theorem quota_exactness_witness :
    (0 < 2 ∧ qWFAmended 2 c1TraceW)
    ∧ ((qRun 2 c1TraceW).remaining + outstandingCount 2 c1TraceW +
        committedCount 2 c1TraceW = 2
      ∧ committedCount 2 c1TraceW ≤ 2
      ∧ (outstandingCount 2 c1TraceW = 0 →
          (qRun 2 c1TraceW).remaining = 2 - committedCount 2 c1TraceW)
      ∧ ((qRun 2 c1TraceW).remaining = 0 →
          qRun 2 (c1TraceW ++ [QEvent.take]) = qRun 2 c1TraceW)) :=
  ⟨⟨by decide, by decide⟩,
    quota_exactness_amended 2 c1TraceW (by decide) (by decide)⟩

end MetDl
